import Mathlib

/-!
Verification development for the kafka-rebalance repository.

The Python sources (`lib/rebalance.py`, `lib/connections.py`) are shallowly
embedded below.  Conventions of the embedding:

* Python objects are modelled by records; object *identity* is modelled by
  explicit ids (`NodeId` for `Node`/`Disk` objects, `ItemId` — an index into
  the `items` array of the global state — for `Item`/`PartitionReplica`
  objects, plain `Nat` for `Broker` objects).  The spec's own design notes
  recommend exactly this arena-and-index representation.
* Python `int` becomes `Int`; Python true division (`/`) produces exact
  rationals `ℚ` in the model (sizes and capacities are integers, so every
  quotient the program forms is rational).
* Python exceptions become `Except PyErr`; statements that can raise are
  sequenced in the `Except` monad.
* `list.sort(key=k, reverse=True)` is a stable descending sort.  A stable
  comparison sort is uniquely determined by the key order, so it is modelled
  by a structurally recursive insertion sort `stableSort` with the boolean
  order `le a b := k b ≤ k a`.
* Mutation is modelled by explicit state passing: the global state `St`
  carries the node list (in its current order — `resort` sorts the caller's
  list in place) and the item arena.  Functions that mutate return the new
  state; `plan` returns the move list together with the final state.
-/

inductive PyErr where
  | statisticsError
  | runtimeError
  | typeError
  | attributeError
  | valueError
  | indexError
  | keyError
  | nameError
deriving DecidableEq

abbrev NodeId := Nat
abbrev ItemId := Nat

/-- `PartitionReplica` (the one concrete `Item` subclass in the repository):
`size`, `initial_owner`, `planned_owner` come from `Item.__init__`;
`topic`, `id` (called `part` here), `replica_id`, `is_leader` from
`PartitionReplica.__init__`.  Topics are modelled by `Nat`. -/
structure Item where
  size : Int
  topic : Nat
  part : Nat
  replica_id : Nat
  is_leader : Bool
  initialOwner : Option NodeId
  plannedOwner : Option NodeId
deriving DecidableEq

instance : Inhabited Item :=
  ⟨{ size := 0, topic := 0, part := 0, replica_id := 0, is_leader := false,
     initialOwner := none, plannedOwner := none }⟩

/-- `Disk` (the one concrete `Node` subclass): `capacity`, `initial_items`,
`planned_items`, `planned_used` come from `Node.__init__`/`planned_sort`;
`broker` and `mount_point` from `Disk.__init__`.  `nid` models object
identity.  `planned_used` is `None` in Python until the first
`planned_sort`; it is never read before that refresh, so the field simply
holds a stale `Int` until then. -/
structure Node where
  nid : NodeId
  broker : Nat
  capacity : Int
  mount_point : String
  initialItems : List ItemId
  plannedItems : List ItemId
  plannedUsed : Int
deriving DecidableEq

structure St where
  nodes : List Node
  items : List Item
deriving DecidableEq

def St.item (st : St) (i : ItemId) : Item := st.items.getD i default

def Item.has_moved (it : Item) : Bool := it.plannedOwner.isSome

/-- `Item.current_owner`: `planned_owner` if set, else `initial_owner`. -/
def Item.current_owner (it : Item) : Option NodeId :=
  match it.plannedOwner with
  | some n => some n
  | none => it.initialOwner

def Node.planned_fraction_used (nd : Node) : ℚ :=
  (nd.plannedUsed : ℚ) / (nd.capacity : ℚ)

/-- Stable insertion step for `stableSort`. -/
def stableInsert (le : α → α → Bool) (a : α) : List α → List α
  | [] => [a]
  | b :: bs => if le a b then a :: b :: bs else b :: stableInsert le a bs

/-- Stable comparison sort; models Python `list.sort` (which is stable) with
the boolean order `le`.  For `sort(key=k, reverse=True)` use
`le a b := k b ≤ k a`: ties keep their original order, as in Python. -/
def stableSort (le : α → α → Bool) : List α → List α
  | [] => []
  | a :: as => stableInsert le a (stableSort le as)

def sumSizes (items : List Item) (l : List ItemId) : Int :=
  (l.map (fun i => (items.getD i default).size)).sum

/-- `Node.planned_sort`: sort `planned_items` by size descending, then
recompute `planned_used` as the sum of the sizes. -/
def Node.planned_sort (items : List Item) (nd : Node) : Node :=
  let sorted := stableSort
    (fun i j => decide ((items.getD j default).size ≤ (items.getD i default).size))
    nd.plannedItems
  { nd with plannedItems := sorted, plannedUsed := sumSizes items sorted }

/-- `resort(nodes)`: `planned_sort` every node, then sort the node list by
`planned_fraction_used` descending (in place — the state's node list is
replaced). -/
def resort (st : St) : St :=
  let nodes1 := st.nodes.map (Node.planned_sort st.items)
  let nodes2 := stableSort
    (fun a b => decide (b.planned_fraction_used ≤ a.planned_fraction_used)) nodes1
  { st with nodes := nodes2 }

/-- The inner `percentage(node)` of `percent_used_variance`: start from the
cached `planned_used`, subtract sizes of excluded items anchored at this
node, add sizes of included items anchored at this node, divide by
capacity.  Anchors are compared by object identity (`exclude_node is
node`), i.e. by `nid`; an anchor may be `None` (it then matches no node). -/
def percentage (st : St) (include_items exclude_items : List (Option NodeId × ItemId))
    (nd : Node) : ℚ :=
  let s := nd.plannedUsed
    - ((exclude_items.filter (fun p => p.1 == some nd.nid)).map
        (fun p => (st.item p.2).size)).sum
    + ((include_items.filter (fun p => p.1 == some nd.nid)).map
        (fun p => (st.item p.2).size)).sum
  (s : ℚ) / (nd.capacity : ℚ)

/-- `statistics.pvariance(data)`: population variance; raises
`StatisticsError` on an empty data sequence. -/
def pvariance (xs : List ℚ) : Except PyErr ℚ :=
  match xs with
  | [] => .error .statisticsError
  | _ =>
    let n : ℚ := (xs.length : ℚ)
    let mean := xs.sum / n
    .ok (((xs.map (fun x => (x - mean) ^ 2)).sum) / n)

/-- `percent_used_variance(nodes, include_items, exclude_items)`. -/
def percent_used_variance (st : St)
    (include_items exclude_items : List (Option NodeId × ItemId)) :
    Except PyErr ℚ :=
  pvariance (st.nodes.map (percentage st include_items exclude_items))

/-- `Item.can_move_to` (the base checks): `False` if `node is
self.initial_owner`; `False` if `node.planned_used + self.size >
node.capacity`; else `True`. -/
def Item.can_move_to (st : St) (i : ItemId) (nd : Node) : Bool :=
  let it := st.item i
  if it.initialOwner == some nd.nid then false
  else if decide (nd.capacity < nd.plannedUsed + it.size) then false
  else true

/-- `Broker.contains_partition(topic, partition_id)`: scans the broker's
disks' `initial_items` and `planned_items` for a replica with this topic
and partition.  A broker object's `disks` are the state's nodes carrying
that broker id (in `main.py` every disk of every broker is passed to
`plan`). -/
def contains_partition (st : St) (brokerId : Nat) (topic part : Nat) : Bool :=
  st.nodes.any (fun nd =>
    nd.broker == brokerId &&
      (nd.initialItems.any (fun i =>
          (st.item i).topic == topic && (st.item i).part == part) ||
        nd.plannedItems.any (fun i =>
          (st.item i).topic == topic && (st.item i).part == part)))

/-- `PartitionReplica.can_move_to(disk)`: leaders are pinned; then the base
`Item.can_move_to` checks; then, when moving across brokers (broker object
identity, modelled by broker id), the destination broker must not already
contain a replica of the same partition.  `self.initial_owner.broker` is
resolved through the state; post-initialization `initial_owner` is always a
node present in the state. -/
def PartitionReplica.can_move_to (st : St) (i : ItemId) (nd : Node) : Bool :=
  let it := st.item i
  if it.is_leader then false
  else if ¬ Item.can_move_to st i nd then false
  else
    let ownerBroker :=
      ((it.initialOwner.bind
          (fun o => st.nodes.find? (fun m => m.nid == o))).map Node.broker).getD 0
    if nd.broker ≠ ownerBroker then
      ¬ contains_partition st nd.broker it.topic it.part
    else true

/-- Resolve an owner reference to its node.  In Python the owner is the node
object itself; dereferencing `None` raises `AttributeError`, and a set
reference always resolves (object identity), so the `find?` failure case is
unreachable on states built by the embedding's own operations. -/
def getNode (st : St) (o : Option NodeId) : Except PyErr Node :=
  match o with
  | none => .error .attributeError
  | some x =>
    match st.nodes.find? (fun m => m.nid == x) with
    | some nd => .ok nd
    | none => .error .attributeError

/-- `move(item, dest_node)`: `item.current_owner.planned_items.remove(item)`
(`ValueError` if absent), then `item.planned_owner = dest_node`, then
`dest_node.planned_items.append(item)`. -/
def move (st : St) (i : ItemId) (dest : NodeId) : Except PyErr St := do
  let it := st.item i
  let src ← getNode st it.current_owner
  if i ∈ src.plannedItems then
    let nodes1 := st.nodes.map (fun nd =>
      if nd.nid == src.nid then { nd with plannedItems := nd.plannedItems.erase i }
      else nd)
    let items1 := st.items.set i { it with plannedOwner := some dest }
    let nodes2 := nodes1.map (fun nd =>
      if nd.nid == dest then { nd with plannedItems := nd.plannedItems ++ [i] }
      else nd)
    pure { nodes := nodes2, items := items1 }
  else
    throw .valueError

structure PlanSettings where
  max_iters : Nat
  node_fraction_threshold : ℚ
  item_fraction_threshold : Option ℚ
  swap : Bool
deriving DecidableEq

/-- `PlanSettings.__init__`, which receives percentages:
`node_fraction_threshold = node_percentage_threshold / 100`,
`item_fraction_threshold = 1 - item_percentage_threshold / 100` when given,
`swap` defaults to `False`.  (`max_iters` is a count; `range(n)` is empty
for `n ≤ 0`, which `Nat` models.) -/
def PlanSettings.ofPercentages (max_iters : Nat) (node_percentage_threshold : ℚ)
    (item_percentage_threshold : Option ℚ) (swap : Bool) : PlanSettings :=
  { max_iters := max_iters,
    node_fraction_threshold := node_percentage_threshold / 100,
    item_fraction_threshold := item_percentage_threshold.map (fun p => 1 - p / 100),
    swap := swap }

/-- Body of the `iter_large_items` generator, iterating the (sorted) node
list.  `nodes_by_size[-1]` — the emptiest node — is fixed for the whole
iteration (the list is not mutated while the generator is consumed):
stop as soon as a node's fraction used is within the threshold of the
emptiest node's; otherwise yield the node's unmoved items in list order. -/
def iter_large_go (st : St) (settings : PlanSettings) (lastN : Node) :
    List Node → List ItemId
  | [] => []
  | nd :: rest =>
    if |lastN.planned_fraction_used - nd.planned_fraction_used| <
        settings.node_fraction_threshold then
      []
    else
      nd.plannedItems.filter (fun i => ¬ (st.item i).has_moved) ++
        iter_large_go st settings lastN rest

/-- `iter_large_items(settings, nodes_by_size)`.  The generator is consumed
by `plan_one` with no interleaved mutation before a step succeeds (and it
is abandoned afterwards), so it is modelled by the eager list of the ids it
would yield. -/
def iter_large_items (settings : PlanSettings) (st : St) : List ItemId :=
  match st.nodes.getLast? with
  | none => []
  | some lastN => iter_large_go st settings lastN st.nodes

/-- `plan_step_swap(nodes, settings, current_pvariance, large_item)`.  Its
first statement is `for small_item in iter_small_items(nodes, settings,
large_item)`, but `iter_small_items` is declared as
`iter_small_items(settings, nodes_by_size, large_node)`: the arguments are
passed in the wrong order, so the generator body evaluates
`reversed(nodes_by_size)` with `nodes_by_size` bound to the `PlanSettings`
object, which raises `TypeError` on the loop's first `next()`.  (Had a
candidate ever been yielded, the first test `small_item.store >=
large_item.store` would raise `AttributeError`: no item class defines a
`store` attribute.)  The function therefore always raises when called. -/
def plan_step_swap (st : St) (settings : PlanSettings) (current_pvariance : ℚ)
    (large_item : ItemId) : Except PyErr (Option (List ItemId) × St) :=
  .error .typeError

/-- Body of the `for node in reversed(nodes)` loop of `plan_step_move`:
skip if the fraction-used gap with the item's current owner is below the
threshold; skip if `item.can_move_to(node)` fails (dynamic dispatch to
`PartitionReplica.can_move_to`, the concrete item class); skip unless the
hypothetical variance — item excluded at its `initial_owner`, included at
the destination — strictly improves; else `move` and return the singleton. -/
def plan_step_move_go (st : St) (settings : PlanSettings) (current_pvariance : ℚ)
    (i : ItemId) : List Node → Except PyErr (Option (List ItemId) × St)
  | [] => pure (none, st)
  | nd :: rest => do
    let ownNd ← getNode st (st.item i).current_owner
    if |nd.planned_fraction_used - ownNd.planned_fraction_used| <
        settings.node_fraction_threshold then
      plan_step_move_go st settings current_pvariance i rest
    else if ¬ PartitionReplica.can_move_to st i nd then
      plan_step_move_go st settings current_pvariance i rest
    else do
      let moved_pvariance ← percent_used_variance st
        [(some nd.nid, i)] [((st.item i).initialOwner, i)]
      if current_pvariance ≤ moved_pvariance then
        plan_step_move_go st settings current_pvariance i rest
      else do
        let st' ← move st i nd.nid
        pure (some [i], st')

/-- `plan_step_move(nodes, settings, current_pvariance, item)`. -/
def plan_step_move (st : St) (settings : PlanSettings) (current_pvariance : ℚ)
    (i : ItemId) : Except PyErr (Option (List ItemId) × St) :=
  plan_step_move_go st settings current_pvariance i st.nodes.reverse

/-- The `plan_step` chosen by `plan`: `plan_step_swap` if `settings.swap`
else `plan_step_move`. -/
def plan_step (st : St) (settings : PlanSettings) (current_pvariance : ℚ)
    (i : ItemId) : Except PyErr (Option (List ItemId) × St) :=
  if settings.swap then plan_step_swap st settings current_pvariance i
  else plan_step_move st settings current_pvariance i

/-- The candidate loop of `plan_one`: run `plan_step` on each yielded large
item; return on the first step that does not answer `None`.  A step that
answers `None` performs no mutation, so the remaining candidates are
evaluated against the unchanged state. -/
def plan_one_go (settings : PlanSettings) (current_pvariance : ℚ) :
    St → List ItemId → Except PyErr (Option (List ItemId) × St)
  | st, [] => pure (none, st)
  | st, i :: rest => do
    let (r, st') ← plan_step st settings current_pvariance i
    match r with
    | some mv => pure (some mv, st')
    | none => plan_one_go settings current_pvariance st' rest

/-- `plan_one(nodes, settings, plan_step)`: `resort`, compute the round's
base variance, then try the large-item candidates in order. -/
def plan_one (st : St) (settings : PlanSettings) :
    Except PyErr (Option (List ItemId) × St) := do
  let st1 := resort st
  let current_pvariance ← percent_used_variance st1 [] []
  plan_one_go settings current_pvariance st1 (iter_large_items settings st1)

/-- The per-node item loop of `plan`'s initialization: for each item of
`initial_items`, set `initial_owner` to this node if unset, raise
`RuntimeError` if it is set to a different node, and clear
`planned_owner`. -/
def plan_init_items (nid : NodeId) : List ItemId → List Item → Except PyErr (List Item)
  | [], items => pure items
  | i :: rest, items =>
    let it := items.getD i default
    match it.initialOwner with
    | none =>
      plan_init_items nid rest
        (items.set i { it with initialOwner := some nid, plannedOwner := none })
    | some o =>
      if o == nid then
        plan_init_items nid rest (items.set i { it with plannedOwner := none })
      else
        throw .runtimeError

def plan_init_go : List Node → List Item → Except PyErr (List Item)
  | [], items => pure items
  | nd :: rest, items => do
    let items' ← plan_init_items nd.nid nd.initialItems items
    plan_init_go rest items'

/-- The initialization loop of `plan`: every node's `planned_items` becomes
a copy of its `initial_items`, and every held item's owner fields are
initialized (order: node by node, item by item). -/
def plan_init (st : St) : Except PyErr St := do
  let items' ← plan_init_go st.nodes st.items
  pure { nodes := st.nodes.map (fun nd => { nd with plannedItems := nd.initialItems }),
         items := items' }

/-- The `for _ in range(settings.max_iters)` loop of `plan`: run `plan_one`;
extend the accumulated moves on success, stop on `None`. -/
def plan_rounds (settings : PlanSettings) :
    Nat → St → List ItemId → Except PyErr (List ItemId × St)
  | 0, st, acc => pure (acc, st)
  | k + 1, st, acc => do
    let (r, st') ← plan_one st settings
    match r with
    | some mv => plan_rounds settings k st' (acc ++ mv)
    | none => pure (acc, st')

/-- `plan(nodes, settings)`: initialization, then up to `max_iters` rounds.
Besides the move list (item ids in acceptance order) the model returns the
final state, making the in-place mutations observable. -/
def plan (st : St) (settings : PlanSettings) : Except PyErr (List ItemId × St) := do
  let st0 ← plan_init st
  plan_rounds settings settings.max_iters st0 []

/-!
Embedding of the reassignment document builder of `lib/connections.py`
(`_find_new_position`, `gen_reassignment_file`).

* A moved `PartitionReplica` enters the builder through the fields it reads:
  `item.topic`, `item.id`, `item.replica_id`,
  `item.planned_owner.broker.id` and `item.planned_owner.mount_point`.
* `partitions` is the `(topic, partition) → (leader, replicas)` mapping; the
  Python dict key `"{topic}-{id}"` is modelled by the pair itself.  Both
  dicts preserve insertion order, modelled by association lists.
* `random.choice(seq)` is modelled by an oracle `pick : List Nat → Nat`
  applied to the non-empty candidate list; on an empty list `random.choice`
  raises `IndexError`.
* CPython aliasing matters here: the record stored under a fresh key holds
  the very list object bound to the local variable `replicas`, and the line
  `replicas[old_replica_pos] = old_replica` of the `else` branch writes
  through that alias — i.e. into the replicas list of the most recently
  *created* record, not the record being updated.  The fold state carries
  the key of that most recently created record (`lastLocal`) to model the
  alias. -/

inductive LogDir where
  | any
  | path (s : String)
deriving DecidableEq

structure AssignRecord where
  topic : Nat
  part : Nat
  replicas : List Int
  original_replicas : List Int
  log_dirs : List LogDir
deriving DecidableEq

/-- The projection of a moved `PartitionReplica` that
`gen_reassignment_file` reads. -/
structure MovedItem where
  topic : Nat
  part : Nat
  replica_id : Nat
  destBroker : Int
  destMount : String
deriving DecidableEq

/-- The emitted per-partition record. -/
structure OutRecord where
  topic : Nat
  part : Nat
  replicas : List Int
  log_dirs : List LogDir
deriving DecidableEq

structure ReassignDoc where
  version : Nat
  partitions : List (OutRecord)
deriving DecidableEq

/-- Python `str.rstrip("/")`. -/
def rstripSlash (s : String) : String := s.dropRightWhile (fun c => c == '/')

/-- Python `lst[i]` (`IndexError` when out of range; indices here are
always natural). -/
def getIdx (l : List α) (i : Nat) : Except PyErr α :=
  match l.get? i with
  | some a => pure a
  | none => throw .indexError

/-- Python `lst[i] = a`. -/
def setIdx (l : List α) (i : Nat) (a : α) : Except PyErr (List α) :=
  if i < l.length then pure (l.set i a) else throw .indexError

/-- `random.choice(seq)` under the oracle `pick`. -/
def pyChoice (pick : List Nat → Nat) (l : List Nat) : Except PyErr Nat :=
  match l with
  | [] => throw .indexError
  | _ => pure (pick l)

/-- `_find_new_position(replicas, new_id, new_position, old_id)`. -/
def find_new_position (pick : List Nat → Nat) (replicas : List Int)
    (new_id : Int) (new_position : Nat) (old_id : Int) : Except PyErr Nat :=
  if old_id ∈ replicas then
    pure (replicas.indexOf old_id)
  else if replicas.count new_id < 2 then
    pyChoice pick ((List.range replicas.length).filter (fun x => x ≠ new_position))
  else if new_id ∉ replicas ∧ old_id ∉ replicas then
    pure 0
  else
    pyChoice pick
      ((replicas.enum.filter (fun p => p.2 == new_id && p.1 ≠ new_position)).map
        (fun p => p.1))

abbrev Assignments := List ((Nat × Nat) × AssignRecord)

def assocFind (m : Assignments) (k : Nat × Nat) : Option AssignRecord :=
  (m.find? (fun kv => kv.1 == k)).map (fun kv => kv.2)

def assocUpdate (m : Assignments) (k : Nat × Nat) (f : AssignRecord → AssignRecord) :
    Assignments :=
  m.map (fun kv => if kv.1 == k then (kv.1, f kv.2) else kv)

/-- One iteration of the `for item in moved_replicas` loop of
`gen_reassignment_file`.  The state is the assignment dict together with
the key of the record whose replicas list the local variable `replicas` is
currently bound to (the most recently created record).  In the `else`
branch the replica substitution and the `log_dirs` update are applied to
the existing record, but the anti-collision write
`replicas[old_replica_pos] = old_replica` goes through the stale local
alias. -/
def gen_step (partitions : List ((Nat × Nat) × (Int × List Int)))
    (pick : List Nat → Nat) (state : Assignments × Option (Nat × Nat))
    (item : MovedItem) : Except PyErr (Assignments × Option (Nat × Nat)) := do
  let (asgn, lastLocal) := state
  let key := (item.topic, item.part)
  let initial_replica_nodes ←
    match partitions.find? (fun kv => kv.1 == key) with
    | some kv => pure kv.2.2
    | none => throw .keyError
  match assocFind asgn key with
  | none => do
    let replicas := initial_replica_nodes
    let old_replica ← getIdx replicas item.replica_id
    let replicas ← setIdx replicas item.replica_id item.destBroker
    let old_replica_pos ←
      find_new_position pick replicas item.destBroker item.replica_id old_replica
    let replicas ← setIdx replicas old_replica_pos old_replica
    let log_dirs := List.replicate initial_replica_nodes.length LogDir.any
    let log_dirs ←
      setIdx log_dirs item.replica_id (LogDir.path (rstripSlash item.destMount))
    pure (asgn ++ [(key,
      { topic := item.topic, part := item.part, replicas := replicas,
        original_replicas := initial_replica_nodes, log_dirs := log_dirs })],
      some key)
  | some rec0 => do
    let old_replica ← getIdx rec0.replicas item.replica_id
    let newReplicas ← setIdx rec0.replicas item.replica_id item.destBroker
    let asgn1 := assocUpdate asgn key (fun r => { r with replicas := newReplicas })
    let old_replica_pos ←
      find_new_position pick newReplicas item.destBroker item.replica_id old_replica
    let asgn2 ←
      match lastLocal with
      | none => throw .nameError
      | some lk =>
        match assocFind asgn1 lk with
        | none => throw .nameError
        | some aliased => do
          let written ← setIdx aliased.replicas old_replica_pos old_replica
          pure (assocUpdate asgn1 lk (fun r => { r with replicas := written }))
    let rec2 ←
      match assocFind asgn2 key with
      | some r => pure r
      | none => throw .nameError
    let newLogs ←
      setIdx rec2.log_dirs item.replica_id (LogDir.path (rstripSlash item.destMount))
    pure (assocUpdate asgn2 key (fun r => { r with log_dirs := newLogs }), lastLocal)

/-- The emission loop of `gen_reassignment_file`: keep a record only when
`len(replicas) == len(set(replicas))` — i.e. the replicas list has no
duplicate broker — and project the emitted fields. -/
def gen_emit (asgn : Assignments) : List (OutRecord) :=
  (asgn.map (fun kv => kv.2)).filterMap (fun r =>
    if r.replicas.length = r.replicas.dedup.length then
      some { topic := r.topic, part := r.part, replicas := r.replicas,
             log_dirs := r.log_dirs }
    else none)

/-- `gen_reassignment_file(partitions, moved_replicas)`. -/
def gen_reassignment_file (partitions : List ((Nat × Nat) × (Int × List Int)))
    (moved_replicas : List MovedItem) (pick : List Nat → Nat) :
    Except PyErr ReassignDoc := do
  let (asgn, _) ← moved_replicas.foldlM (gen_step partitions pick) ([], none)
  pure { version := 1, partitions := gen_emit asgn }

/-!
Well-formedness of an input state, as `main.py` constructs it: node objects
are distinct (distinct ids), capacities are positive (`df` sizes), sizes
are non-negative (`du` sizes), and every held replica was created with its
holding disk as `initial_owner` (`Disk.fetch_replicas` passes `self`). -/
def WF (st : St) : Prop :=
  (st.nodes.map Node.nid).Nodup ∧
  (∀ it ∈ st.items, 0 ≤ it.size) ∧
  (∀ nd ∈ st.nodes, 0 < nd.capacity) ∧
  (∀ nd ∈ st.nodes, ∀ i ∈ nd.initialItems, (st.item i).initialOwner = some nd.nid)

instance (st : St) : Decidable (WF st) := by
  unfold WF
  infer_instance

/-- The multiset of item ids currently planned across all nodes. -/
def plannedMultiset (st : St) : Multiset ItemId :=
  (st.nodes.map (fun nd => (nd.plannedItems : Multiset ItemId))).sum

/-- The multiset of item ids initially held across all nodes. -/
def initialMultiset (st : St) : Multiset ItemId :=
  (st.nodes.map (fun nd => (nd.initialItems : Multiset ItemId))).sum

/-- The exact per-node fractions `planned_used / capacity` recomputed from
the current planned items (what each round's `resort` re-caches and what
`percent_used_variance(nodes)` then measures). -/
def stateFracs (st : St) : List ℚ :=
  st.nodes.map (fun nd => ((sumSizes st.items nd.plannedItems : Int) : ℚ) / (nd.capacity : ℚ))

/-!  Concrete inputs used by witnesses and counterexamples. -/

/-- Convenience constructor for a replica. -/
def mkItem (sz : Int) (ow : NodeId) (ldr : Bool) (t p r : Nat) : Item :=
  { size := sz, topic := t, part := p, replica_id := r, is_leader := ldr,
    initialOwner := some ow, plannedOwner := none }

/-- Convenience constructor for a disk. -/
def mkNode (n : NodeId) (b : Nat) (cap : Int) (init : List ItemId) : Node :=
  { nid := n, broker := b, capacity := cap, mount_point := "",
    initialItems := init, plannedItems := [], plannedUsed := 0 }

/-- Spec scenario S4: disk A (cap 100) holds one item of size 80, disk B
(cap 100) holds one item of size 5, swap mode, node threshold 10%, item
threshold 50%. -/
def exS4st : St :=
  { nodes := [mkNode 0 0 100 [0], mkNode 1 0 100 [1]],
    items := [mkItem 80 0 false 0 0 0, mkItem 5 1 false 1 0 0] }

def exS4settings : PlanSettings := PlanSettings.ofPercentages 5 10 (some 50) true

/-- Spec scenario S2: disk A holds one leader of size 50, disk B empty,
both capacity 100. -/
def exS2st : St :=
  { nodes := [mkNode 0 1 100 [0], mkNode 1 1 100 []],
    items := [mkItem 50 0 true 0 0 0] }

def exS2settings : PlanSettings :=
  { max_iters := 5, node_fraction_threshold := 1/20,
    item_fraction_threshold := none, swap := false }

/-- A two-disk input on which `plan` accepts a move: disk A (cap 100) holds
items of sizes 40, 30, 20; disk B (cap 100) is empty. -/
def exS1st : St :=
  { nodes := [mkNode 0 1 100 [0, 1, 2], mkNode 1 1 100 []],
    items := [mkItem 40 0 false 0 0 0, mkItem 30 0 false 1 0 0,
              mkItem 20 0 false 2 0 0] }

/-- An input whose disk A (cap 10) is overfull from the start (two items of
size 20); disk B (cap 100) is empty, so a move is accepted, after which A
still exceeds its capacity. -/
def exOverSt : St :=
  { nodes := [mkNode 0 0 10 [0, 1], mkNode 1 0 100 []],
    items := [mkItem 20 0 false 0 0 0, mkItem 20 0 false 1 0 0] }

def exOverSettings : PlanSettings :=
  { max_iters := 1, node_fraction_threshold := 1/20,
    item_fraction_threshold := none, swap := false }

/-- An input already in equilibrium: both disks at fraction 1/2. -/
def exEqSt : St :=
  { nodes := [mkNode 0 0 100 [0], mkNode 1 0 200 [1]],
    items := [mkItem 50 0 false 0 0 0, mkItem 100 1 false 1 0 0] }

def exEqSettings : PlanSettings :=
  { max_iters := 4, node_fraction_threshold := 1/10,
    item_fraction_threshold := none, swap := false }

def pickHead (l : List Nat) : Nat := l.headD 0

/-- The `exOverSt` input as it stands at a round boundary (after `plan`'s
initialization): `planned_items` copies `initial_items`, planned owners are
clear.  `plan_one` on this state accepts a move and strictly lowers the
per-disk utilization variance. -/
def exC4st : St :=
  { nodes := [{ nid := 0, broker := 0, capacity := 10, mount_point := "",
                initialItems := [0, 1], plannedItems := [0, 1], plannedUsed := 0 },
              { nid := 1, broker := 0, capacity := 100, mount_point := "",
                initialItems := [], plannedItems := [], plannedUsed := 0 }],
    items := [mkItem 20 0 false 0 0 0, mkItem 20 0 false 1 0 0] }

/-- Input exhibiting the stale-alias defect of `gen_reassignment_file`:
partition (0,0) has replicas [1,2], partition (1,0) has replicas [3,4];
three moves — (0,0) replica 0 to broker 2, (1,0) replica 0 to broker 4,
then a second move of (0,0), replica 1 to broker 9.  Processing the third
move must update record (0,0), yet the anti-collision write lands in
record (1,0) (the most recently created record). -/
def exParts : List ((Nat × Nat) × (Int × List Int)) :=
  [((0, 0), (0, [1, 2])), ((1, 0), (0, [3, 4]))]

def exMoves : List MovedItem :=
  [{ topic := 0, part := 0, replica_id := 0, destBroker := 2, destMount := "/d" },
   { topic := 1, part := 0, replica_id := 0, destBroker := 4, destMount := "/e" },
   { topic := 0, part := 0, replica_id := 1, destBroker := 9, destMount := "/f" }]

/-- The fields of an item that no operation of the planner ever writes:
size, topic, partition, replica index, leader flag. -/
def itemStatic (it : Item) : Int × Nat × Nat × Nat × Bool :=
  (it.size, it.topic, it.part, it.replica_id, it.is_leader)

/-! Generic lemmas about the embedding's building blocks. -/

theorem ebind_ok (a : α) (f : α → Except PyErr β) :
    (Except.ok a >>= f) = f a := rfl

theorem ebind_err (e : PyErr) (f : α → Except PyErr β) :
    ((Except.error e : Except PyErr α) >>= f) = Except.error e := rfl

theorem epure_def (a : α) : (pure a : Except PyErr α) = Except.ok a := rfl

theorem ethrow_def : (throw e : Except PyErr α) = Except.error e := rfl

theorem emap_ok (f : α → β) (a : α) :
    (f <$> (Except.ok a : Except PyErr α)) = Except.ok (f a) := rfl

theorem emap_err (f : α → β) (e : PyErr) :
    (f <$> (Except.error e : Except PyErr α)) = Except.error e := rfl

theorem stableInsert_perm (le : α → α → Bool) (a : α) (l : List α) :
    (stableInsert le a l).Perm (a :: l) := by
  induction l with
  | nil => exact List.Perm.refl _
  | cons b bs ih =>
    by_cases h : le a b = true
    · simp [stableInsert, h]
    · simp only [stableInsert, h, if_false]
      exact (List.Perm.cons b ih).trans (List.Perm.swap a b bs)

theorem stableSort_perm (le : α → α → Bool) (l : List α) :
    (stableSort le l).Perm l := by
  induction l with
  | nil => exact List.Perm.refl _
  | cons a as ih =>
    exact (stableInsert_perm le a (stableSort le as)).trans (List.Perm.cons a ih)

theorem getD_set_eq_ite (l : List α) (i j : Nat) (a d : α) :
    (l.set i a).getD j d = if i = j ∧ j < l.length then a else l.getD j d := by
  induction l generalizing i j with
  | nil => simp [List.set]
  | cons x xs ih =>
    cases i with
    | zero =>
      cases j with
      | zero => simp
      | succ j' => simp [List.getD]
    | succ i' =>
      cases j with
      | zero => simp [List.getD]
      | succ j' =>
        simp only [List.set, List.getD_cons_succ, List.length_cons, ih]
        congr 1
        simp only [eq_iff_iff, and_congr_left_iff]
        omega

theorem set_preserves_proj (items : List Item) (i : Nat) (a : Item)
    (p : Item → β) (hp : p a = p (items.getD i default)) (j : Nat) :
    p ((items.set i a).getD j default) = p (items.getD j default) := by
  rw [getD_set_eq_ite]
  split
  · next h => rw [hp, h.1]
  · rfl

theorem mem_nid_eq {l : List Node} (h : (l.map Node.nid).Nodup) {a b : Node}
    (ha : a ∈ l) (hb : b ∈ l) (hn : a.nid = b.nid) : a = b := by
  induction l with
  | nil => cases ha
  | cons x xs ih =>
    simp only [List.map_cons, List.nodup_cons] at h
    rcases List.mem_cons.mp ha with rfl | ha' <;>
      rcases List.mem_cons.mp hb with rfl | hb'
    · rfl
    · exact absurd (hn ▸ List.mem_map_of_mem Node.nid hb') h.1
    · exact absurd (hn ▸ List.mem_map_of_mem Node.nid ha') h.1
    · exact ih h.2 ha' hb'

theorem move_ok_elim {st : St} {i : ItemId} {dest : NodeId} {st' : St}
    (h : move st i dest = .ok st') :
    ∃ s src, (st.item i).current_owner = some s ∧
      st.nodes.find? (fun m => m.nid == s) = some src ∧
      i ∈ src.plannedItems ∧
      st'.items = st.items.set i { st.item i with plannedOwner := some dest } ∧
      st'.nodes = (st.nodes.map (fun nd =>
          if nd.nid == src.nid then
            { nd with plannedItems := nd.plannedItems.erase i } else nd)).map
        (fun nd =>
          if nd.nid == dest then
            { nd with plannedItems := nd.plannedItems ++ [i] } else nd) := by
  cases hco : (st.item i).current_owner with
  | none => simp [move, getNode, hco, ebind_err] at h
  | some s =>
    cases hf : st.nodes.find? (fun m => m.nid == s) with
    | none => simp [move, getNode, hco, hf, ebind_err] at h
    | some src =>
      by_cases hmem : i ∈ src.plannedItems
      · simp only [move, getNode, hco, hf, ebind_ok, hmem, if_true, epure_def,
          Except.ok.injEq] at h
        exact ⟨s, src, rfl, hf, hmem, by rw [← h], by rw [← h]⟩
      · simp [move, getNode, hco, hf, hmem, ebind_ok] at h

theorem plan_step_move_go_none {st : St} {settings : PlanSettings} {cur : ℚ}
    {i : ItemId} : ∀ (L : List Node) (st₂ : St),
    plan_step_move_go st settings cur i L = .ok (none, st₂) → st₂ = st := by
  intro L
  induction L with
  | nil =>
    intro st₂ h
    simp only [plan_step_move_go, epure_def, Except.ok.injEq, Prod.mk.injEq] at h
    exact h.2.symm
  | cons nd rest ih =>
    intro st₂ h
    cases how : getNode st (st.item i).current_owner with
    | error e => simp [plan_step_move_go, how, ebind_err] at h
    | ok ownNd =>
      simp only [plan_step_move_go, how, ebind_ok] at h
      by_cases c1 : |nd.planned_fraction_used - ownNd.planned_fraction_used| <
          settings.node_fraction_threshold
      · rw [if_pos c1] at h
        exact ih st₂ h
      · rw [if_neg c1] at h
        by_cases c2 : PartitionReplica.can_move_to st i nd = true
        · simp only [c2, not_true, if_false, if_neg] at h
          cases hmp : percent_used_variance st [(some nd.nid, i)]
              [((st.item i).initialOwner, i)] with
          | error e => rw [hmp, ebind_err] at h; cases h
          | ok mp =>
            rw [hmp, ebind_ok] at h
            by_cases c3 : cur ≤ mp
            · rw [if_pos c3] at h
              exact ih st₂ h
            · rw [if_neg c3] at h
              cases hmv : move st i nd.nid with
              | error e => rw [hmv, ebind_err] at h; cases h
              | ok st'' =>
                rw [hmv, ebind_ok] at h
                simp only [epure_def, Except.ok.injEq, Prod.mk.injEq] at h
                cases h.1
        · simp only [Bool.not_eq_true] at c2
          simp only [c2, Bool.false_eq_true, not_false_iff, if_true] at h
          exact ih st₂ h

theorem plan_step_move_go_some {st : St} {settings : PlanSettings} {cur : ℚ}
    {i : ItemId} : ∀ (L : List Node) (mv : List ItemId) (st' : St),
    plan_step_move_go st settings cur i L = .ok (some mv, st') →
    mv = [i] ∧ ∃ nd ∈ L, PartitionReplica.can_move_to st i nd = true ∧
      (∃ mp, percent_used_variance st [(some nd.nid, i)]
          [((st.item i).initialOwner, i)] = .ok mp ∧ mp < cur) ∧
      move st i nd.nid = .ok st' := by
  intro L
  induction L with
  | nil =>
    intro mv st' h
    simp only [plan_step_move_go, epure_def, Except.ok.injEq, Prod.mk.injEq] at h
    cases h.1
  | cons nd rest ih =>
    intro mv st' h
    cases how : getNode st (st.item i).current_owner with
    | error e => simp [plan_step_move_go, how, ebind_err] at h
    | ok ownNd =>
      simp only [plan_step_move_go, how, ebind_ok] at h
      by_cases c1 : |nd.planned_fraction_used - ownNd.planned_fraction_used| <
          settings.node_fraction_threshold
      · rw [if_pos c1] at h
        obtain ⟨hmv, nd', hnd', rest'⟩ := ih mv st' h
        exact ⟨hmv, nd', List.mem_cons_of_mem nd hnd', rest'⟩
      · rw [if_neg c1] at h
        by_cases c2 : PartitionReplica.can_move_to st i nd = true
        · simp only [c2, not_true, if_false, if_neg] at h
          cases hmp : percent_used_variance st [(some nd.nid, i)]
              [((st.item i).initialOwner, i)] with
          | error e => rw [hmp, ebind_err] at h; cases h
          | ok mp =>
            rw [hmp, ebind_ok] at h
            by_cases c3 : cur ≤ mp
            · rw [if_pos c3] at h
              obtain ⟨hmv, nd', hnd', rest'⟩ := ih mv st' h
              exact ⟨hmv, nd', List.mem_cons_of_mem nd hnd', rest'⟩
            · rw [if_neg c3] at h
              cases hmv : move st i nd.nid with
              | error e => rw [hmv, ebind_err] at h; cases h
              | ok st'' =>
                rw [hmv, ebind_ok] at h
                simp only [epure_def, Except.ok.injEq, Prod.mk.injEq,
                  Option.some.injEq] at h
                refine ⟨h.1.symm, nd, List.mem_cons_self nd rest, c2,
                  ⟨mp, hmp, not_le.mp c3⟩, ?_⟩
                rw [hmv, h.2]
        · simp only [Bool.not_eq_true] at c2
          simp only [c2, Bool.false_eq_true, not_false_iff, if_true] at h
          obtain ⟨hmv, nd', hnd', rest'⟩ := ih mv st' h
          exact ⟨hmv, nd', List.mem_cons_of_mem nd hnd', rest'⟩

theorem plan_step_none {st : St} {settings : PlanSettings} {cur : ℚ} {i : ItemId}
    {st₂ : St} (h : plan_step st settings cur i = .ok (none, st₂)) : st₂ = st := by
  unfold plan_step at h
  by_cases hs : settings.swap
  · rw [if_pos hs] at h; cases h
  · rw [if_neg hs] at h
    exact plan_step_move_go_none _ _ h

theorem plan_step_some (st : St) (settings : PlanSettings) (cur : ℚ) (i : ItemId)
    (mv : List ItemId) (st' : St)
    (h : plan_step st settings cur i = .ok (some mv, st')) :
    settings.swap = false ∧ mv = [i] ∧
      ∃ nd ∈ st.nodes, PartitionReplica.can_move_to st i nd = true ∧
        (∃ mp, percent_used_variance st [(some nd.nid, i)]
            [((st.item i).initialOwner, i)] = .ok mp ∧ mp < cur) ∧
        move st i nd.nid = .ok st' := by
  unfold plan_step at h
  by_cases hs : settings.swap
  · rw [if_pos hs] at h; cases h
  · rw [if_neg hs] at h
    obtain ⟨hmv, nd, hnd, rest⟩ := plan_step_move_go_some _ mv st' h
    exact ⟨Bool.not_eq_true _ ▸ hs, hmv, nd, List.mem_reverse.mp hnd, rest⟩

theorem plan_one_go_none {settings : PlanSettings} {cur : ℚ} :
    ∀ (cands : List ItemId) (st st₂ : St),
    plan_one_go settings cur st cands = .ok (none, st₂) → st₂ = st := by
  intro cands
  induction cands with
  | nil =>
    intro st st₂ h
    simp only [plan_one_go, epure_def, Except.ok.injEq, Prod.mk.injEq] at h
    exact h.2.symm
  | cons i rest ih =>
    intro st st₂ h
    cases hstep : plan_step st settings cur i with
    | error e => simp [plan_one_go, hstep, ebind_err] at h
    | ok p =>
      obtain ⟨r, stN⟩ := p
      simp only [plan_one_go, hstep, ebind_ok] at h
      cases r with
      | some mv => simp only [epure_def, Except.ok.injEq, Prod.mk.injEq] at h; cases h.1
      | none =>
        have hst : stN = st := plan_step_none hstep
        subst hst
        exact ih _ _ h

theorem plan_one_go_some {settings : PlanSettings} {cur : ℚ} :
    ∀ (cands : List ItemId) (st : St) (mv : List ItemId) (st' : St),
    plan_one_go settings cur st cands = .ok (some mv, st') →
    ∃ i ∈ cands, plan_step st settings cur i = .ok (some mv, st') := by
  intro cands
  induction cands with
  | nil =>
    intro st mv st' h
    simp only [plan_one_go, epure_def, Except.ok.injEq, Prod.mk.injEq] at h
    cases h.1
  | cons i rest ih =>
    intro st mv st' h
    cases hstep : plan_step st settings cur i with
    | error e => simp [plan_one_go, hstep, ebind_err] at h
    | ok p =>
      obtain ⟨r, stN⟩ := p
      simp only [plan_one_go, hstep, ebind_ok] at h
      cases r with
      | some mv' =>
        simp only [epure_def, Except.ok.injEq, Prod.mk.injEq, Option.some.injEq] at h
        exact ⟨i, List.mem_cons_self i rest, h.1 ▸ h.2 ▸ hstep⟩
      | none =>
        have hst : stN = st := plan_step_none hstep
        subst hst
        obtain ⟨j, hj, hjs⟩ := ih _ mv st' h
        exact ⟨j, List.mem_cons_of_mem i hj, hjs⟩

theorem plan_one_some {st : St} {settings : PlanSettings} {mv : List ItemId}
    {st' : St} (h : plan_one st settings = .ok (some mv, st')) :
    ∃ cur, percent_used_variance (resort st) [] [] = .ok cur ∧
      ∃ i ∈ iter_large_items settings (resort st),
        plan_step (resort st) settings cur i = .ok (some mv, st') := by
  simp only [plan_one] at h
  cases hv : percent_used_variance (resort st) [] [] with
  | error e => rw [hv, ebind_err] at h; cases h
  | ok cur =>
    rw [hv, ebind_ok] at h
    exact ⟨cur, rfl, plan_one_go_some _ _ mv st' h⟩

theorem plan_one_none {st : St} {settings : PlanSettings} {st' : St}
    (h : plan_one st settings = .ok (none, st')) : st' = resort st := by
  simp only [plan_one] at h
  cases hv : percent_used_variance (resort st) [] [] with
  | error e => rw [hv, ebind_err] at h; cases h
  | ok cur =>
    rw [hv, ebind_ok] at h
    exact plan_one_go_none _ _ st' h

theorem plan_rounds_len {settings : PlanSettings} :
    ∀ (k : Nat) (st : St) (acc res : List ItemId) (st' : St),
    plan_rounds settings k st acc = .ok (res, st') → res.length ≤ acc.length + k := by
  intro k
  induction k with
  | zero =>
    intro st acc res st' h
    simp only [plan_rounds, epure_def, Except.ok.injEq, Prod.mk.injEq] at h
    simp [← h.1]
  | succ k ih =>
    intro st acc res st' h
    cases hone : plan_one st settings with
    | error e => simp [plan_rounds, hone, ebind_err] at h
    | ok p =>
      obtain ⟨r, st₂⟩ := p
      simp only [plan_rounds, hone, ebind_ok] at h
      cases r with
      | none =>
        simp only [epure_def, Except.ok.injEq, Prod.mk.injEq] at h
        rw [← h.1]
        omega
      | some mv =>
        obtain ⟨cur, _, i, _, hstep⟩ := plan_one_some hone
        obtain ⟨_, hmv, _⟩ := plan_step_some _ _ _ _ _ _ hstep
        have := ih st₂ (acc ++ mv) res st' h
        rw [hmv] at this
        simp only [List.length_append, List.length_cons, List.length_nil] at this
        omega

/-- C10: for every item arena and every settings with `max_iters ≥ 1`,
calling `plan` with an empty node list raises an exception — the first
round's `percent_used_variance` applies `statistics.pvariance` to zero data
points, raising `StatisticsError` — rather than returning an empty move
list. -/
theorem plan_empty_nodes_raises (items : List Item) (settings : PlanSettings)
    (h : 1 ≤ settings.max_iters) :
    plan { nodes := [], items := items } settings = .error .statisticsError := by
  obtain ⟨k, hk⟩ : ∃ k, settings.max_iters = k + 1 :=
    ⟨settings.max_iters - 1, by omega⟩
  have hinit : plan_init { nodes := [], items := items } =
      .ok { nodes := [], items := items } := by
    simp [plan_init, plan_init_go, epure_def, ebind_ok]
  have hone : plan_one { nodes := [], items := items } settings =
      .error .statisticsError := by
    simp [plan_one, resort, stableSort, percent_used_variance, pvariance, ebind_err]
  simp only [plan, hinit, ebind_ok, hk, plan_rounds, hone, ebind_err]

/-- C10 witness: a concrete instance of the statement above. -/
theorem plan_empty_nodes_raises_witness :
    1 ≤ exS2settings.max_iters ∧
      plan { nodes := [], items := [mkItem 5 0 false 0 0 0] } exS2settings =
        .error .statisticsError :=
  ⟨by decide, plan_empty_nodes_raises [mkItem 5 0 false 0 0 0] exS2settings (by decide)⟩

/-- C1: the claim says that in swap mode each candidate yielded by the
small-item stream is skipped exactly when `small_item.size ≥
large_item.size`.  On the code this is false: `plan_step_swap` passes its
arguments to `iter_small_items` in the wrong order, so the stream raises
`TypeError` before yielding anything (and the test itself reads a
nonexistent `store` attribute instead of `size`).  Evaluation on spec
scenario S4 — where a swap of the size-80 and size-5 items is expected —
shows the whole plan aborting with `TypeError`. -/
theorem plan_swap_raises_on_S4 : plan exS4st exS4settings = .error .typeError := by
  with_unfolding_all rfl

/-- C9: whenever `plan` returns (its round loop is a bounded `range` loop,
so it always terminates), the returned move list has at most `max_iters`
entries — each accepted round contributes exactly one item in move mode
and no round can be accepted in swap mode, so the `2 · max_iters` bound of
the claim holds as well. -/
theorem plan_iteration_bound (st : St) (settings : PlanSettings)
    (mv : List ItemId) (st' : St) (h : plan st settings = .ok (mv, st')) :
    mv.length ≤ settings.max_iters ∧ mv.length ≤ 2 * settings.max_iters := by
  unfold plan at h
  cases hinit : plan_init st with
  | error e => rw [hinit, ebind_err] at h; cases h
  | ok st0 =>
    rw [hinit, ebind_ok] at h
    have := plan_rounds_len settings.max_iters st0 [] mv st' h
    simp only [List.length_nil] at this
    omega

/-- C9 witness: `plan` on a concrete two-disk input accepts one move within
the bound. -/
theorem plan_iteration_bound_witness :
    ∃ mv st', plan exS1st exS2settings = .ok (mv, st') ∧
      mv.length ≤ exS2settings.max_iters ∧
      mv.length ≤ 2 * exS2settings.max_iters := by
  with_unfolding_all
    exact ⟨[0], _, rfl, plan_iteration_bound exS1st exS2settings [0] _ rfl⟩

theorem setIdx_ok_elim {l : List α} {i : Nat} {a : α} {l' : List α}
    (h : setIdx l i a = .ok l') : l' = l.set i a := by
  unfold setIdx at h
  split at h
  · cases h; rfl
  · cases h

theorem setIdx_ok_length {l : List α} {i : Nat} {a : α} {l' : List α}
    (h : setIdx l i a = .ok l') : l'.length = l.length := by
  rw [setIdx_ok_elim h]
  exact List.length_set l i a

theorem assocFind_none_key {m : Assignments} {k : Nat × Nat}
    (h : assocFind m k = none) : k ∉ m.map Prod.fst := by
  unfold assocFind at h
  rw [Option.map_eq_none'] at h
  rw [List.find?_eq_none] at h
  intro hk
  obtain ⟨kv, hkv, hfst⟩ := List.mem_map.mp hk
  exact absurd (by simp [hfst]) (h kv hkv)

theorem assocFind_some_mem {m : Assignments} {k : Nat × Nat} {v : AssignRecord}
    (h : assocFind m k = some v) : (k, v) ∈ m := by
  unfold assocFind at h
  rw [Option.map_eq_some'] at h
  obtain ⟨kv, hfind, hv⟩ := h
  have hmem := List.mem_of_find?_eq_some hfind
  have hp := List.find?_some hfind
  have h1 : kv.1 = k := by simpa using hp
  have h2 : kv = (k, v) := by
    cases kv
    simp_all
  exact h2 ▸ hmem

theorem mem_fst_eq {β : Type} {l : List ((Nat × Nat) × β)}
    (h : (l.map Prod.fst).Nodup) {a b : (Nat × Nat) × β}
    (ha : a ∈ l) (hb : b ∈ l) (hn : a.1 = b.1) : a = b := by
  induction l with
  | nil => cases ha
  | cons x xs ih =>
    simp only [List.map_cons, List.nodup_cons] at h
    rcases List.mem_cons.mp ha with rfl | ha' <;>
      rcases List.mem_cons.mp hb with rfl | hb'
    · rfl
    · exact absurd (hn ▸ List.mem_map_of_mem Prod.fst hb') h.1
    · exact absurd (hn ▸ List.mem_map_of_mem Prod.fst ha') h.1
    · exact ih h.2 ha' hb'

theorem assocFind_some_unique {m : Assignments} {k : Nat × Nat} {v : AssignRecord}
    (hnd : (m.map Prod.fst).Nodup) (h : assocFind m k = some v) :
    ∀ kv ∈ m, kv.1 = k → kv.2 = v := by
  intro kv hkv hfst
  have hmem := assocFind_some_mem h
  have : kv = (k, v) := mem_fst_eq hnd hkv hmem (by simpa using hfst)
  rw [this]

theorem assocUpdate_keys (m : Assignments) (k : Nat × Nat)
    (f : AssignRecord → AssignRecord) :
    (assocUpdate m k f).map Prod.fst = m.map Prod.fst := by
  unfold assocUpdate
  rw [List.map_map]
  apply List.map_congr_left
  intro kv _
  simp only [Function.comp_apply]
  split <;> rfl

theorem assocUpdate_mem {m : Assignments} {k : Nat × Nat}
    {f : AssignRecord → AssignRecord} {kv' : (Nat × Nat) × AssignRecord}
    (h : kv' ∈ assocUpdate m k f) :
    ∃ kv ∈ m, kv' = if kv.1 == k then (kv.1, f kv.2) else kv := by
  unfold assocUpdate at h
  obtain ⟨kv, hkv, heq⟩ := List.mem_map.mp h
  exact ⟨kv, hkv, heq.symm⟩

theorem nodup_of_length_eq_dedup {l : List Int} (h : l.length = l.dedup.length) :
    l.Nodup := by
  have hsub : l.dedup.Sublist l := List.dedup_sublist l
  have : l.dedup = l := hsub.eq_of_length h.symm
  rw [← this]
  exact l.nodup_dedup

theorem gen_step_preserves {partitions : List ((Nat × Nat) × (Int × List Int))}
    {pick : List Nat → Nat} {asgn : Assignments} {last : Option (Nat × Nat)}
    {item : MovedItem} {asgn' : Assignments} {last' : Option (Nat × Nat)}
    (h : gen_step partitions pick (asgn, last) item = .ok (asgn', last'))
    (hk : (asgn.map Prod.fst).Nodup)
    (hP : ∀ kv ∈ asgn, kv.2.replicas.length = kv.2.log_dirs.length) :
    (asgn'.map Prod.fst).Nodup ∧
      ∀ kv ∈ asgn', kv.2.replicas.length = kv.2.log_dirs.length := by
  simp only [gen_step] at h
  cases hfp : partitions.find? (fun kv => kv.1 == (item.topic, item.part)) with
  | none => simp [hfp, ethrow_def, ebind_err, ethrow_def, emap_err] at h
  | some kv0 =>
    simp only [hfp, ebind_ok, epure_def, ethrow_def, emap_ok] at h
    cases hfa : assocFind asgn (item.topic, item.part) with
    | none =>
      simp only [hfa] at h
      cases hg1 : getIdx kv0.2.2 item.replica_id with
      | error e => simp [hg1, ebind_err, ethrow_def, emap_err] at h
      | ok old_replica =>
        simp only [hg1, ebind_ok, ethrow_def, emap_ok] at h
        cases hs1 : setIdx kv0.2.2 item.replica_id item.destBroker with
        | error e => simp [hs1, ebind_err, ethrow_def, emap_err] at h
        | ok reps1 =>
          simp only [hs1, ebind_ok, ethrow_def, emap_ok] at h
          cases hfn : find_new_position pick reps1 item.destBroker item.replica_id
              old_replica with
          | error e => simp [hfn, ebind_err, ethrow_def, emap_err] at h
          | ok pos =>
            simp only [hfn, ebind_ok, ethrow_def, emap_ok] at h
            cases hs2 : setIdx reps1 pos old_replica with
            | error e => simp [hs2, ebind_err, ethrow_def, emap_err] at h
            | ok reps2 =>
              simp only [hs2, ebind_ok, ethrow_def, emap_ok] at h
              cases hs3 : setIdx (List.replicate kv0.2.2.length LogDir.any)
                  item.replica_id (LogDir.path (rstripSlash item.destMount)) with
              | error e => simp [hs3, ebind_err, ethrow_def, emap_err] at h
              | ok logs1 =>
                simp only [hs3, ebind_ok, epure_def, ethrow_def, emap_ok, Except.ok.injEq,
                  Prod.mk.injEq] at h
                obtain ⟨ha, hl⟩ := h
                subst ha
                constructor
                · rw [List.map_append]
                  rw [List.nodup_append]
                  refine ⟨hk, by simp, ?_⟩
                  intro x hx
                  simp only [List.map_cons, List.map_nil, List.mem_singleton]
                  intro hx1
                  exact absurd (hx1 ▸ hx) (assocFind_none_key hfa)
                · intro kv hkv
                  rcases List.mem_append.mp hkv with hkv' | hkv'
                  · exact hP kv hkv'
                  · have hkv2 : kv = ((item.topic, item.part),
                        { topic := item.topic, part := item.part, replicas := reps2,
                          original_replicas := kv0.2.2, log_dirs := logs1 }) := by
                      simpa using hkv'
                    subst hkv2
                    have e1 : reps2.length = kv0.2.2.length := by
                      rw [setIdx_ok_length hs2, setIdx_ok_length hs1]
                    have e2 : logs1.length = kv0.2.2.length := by
                      rw [setIdx_ok_length hs3, List.length_replicate]
                    simp only [e1, e2]
    | some rec0 =>
      simp only [hfa] at h
      cases hg1 : getIdx rec0.replicas item.replica_id with
      | error e => simp [hg1, ebind_err, ethrow_def, emap_err] at h
      | ok old_replica =>
        simp only [hg1, ebind_ok, ethrow_def, emap_ok] at h
        cases hs1 : setIdx rec0.replicas item.replica_id item.destBroker with
        | error e => simp [hs1, ebind_err, ethrow_def, emap_err] at h
        | ok newReplicas =>
          simp only [hs1, ebind_ok, ethrow_def, emap_ok] at h
          cases hfn : find_new_position pick newReplicas item.destBroker
              item.replica_id old_replica with
          | error e => simp [hfn, ebind_err, ethrow_def, emap_err] at h
          | ok pos =>
            simp only [hfn, ebind_ok, ethrow_def, emap_ok] at h
            cases last with
            | none => simp [ebind_err, ethrow_def, emap_err] at h
            | some lk =>
              have hk1 : ((assocUpdate asgn (item.topic, item.part)
                  (fun r => { r with replicas := newReplicas })).map Prod.fst).Nodup := by
                rw [assocUpdate_keys]; exact hk
              have hP1 : ∀ kv ∈ assocUpdate asgn (item.topic, item.part)
                  (fun r => { r with replicas := newReplicas }),
                  kv.2.replicas.length = kv.2.log_dirs.length := by
                intro kv hkv
                obtain ⟨kv1, hkv1, heq⟩ := assocUpdate_mem hkv
                by_cases hx : kv1.1 == (item.topic, item.part)
                · rw [heq, if_pos hx]
                  have hrec : kv1.2 = rec0 :=
                    assocFind_some_unique hk hfa kv1 hkv1 (by simpa using hx)
                  simp only [hrec, setIdx_ok_length hs1]
                  exact hrec ▸ hP kv1 hkv1
                · rw [heq, if_neg hx]
                  exact hP kv1 hkv1
              cases hfb : assocFind (assocUpdate asgn (item.topic, item.part)
                  (fun r => { r with replicas := newReplicas })) lk with
              | none => simp [hfb, ebind_err, ethrow_def, emap_err] at h
              | some aliased =>
                simp only [hfb] at h
                cases hs2 : setIdx aliased.replicas pos old_replica with
                | error e => simp [hs2, ebind_err, ethrow_def, emap_err] at h
                | ok written =>
                  simp only [hs2, ebind_ok, epure_def, ethrow_def, emap_ok] at h
                  have hk2 : ((assocUpdate (assocUpdate asgn (item.topic, item.part)
                      (fun r => { r with replicas := newReplicas })) lk
                      (fun r => { r with replicas := written })).map Prod.fst).Nodup := by
                    rw [assocUpdate_keys]; exact hk1
                  have hP2 : ∀ kv ∈ assocUpdate (assocUpdate asgn (item.topic, item.part)
                      (fun r => { r with replicas := newReplicas })) lk
                      (fun r => { r with replicas := written }),
                      kv.2.replicas.length = kv.2.log_dirs.length := by
                    intro kv hkv
                    obtain ⟨kv1, hkv1, heq⟩ := assocUpdate_mem hkv
                    by_cases hx : kv1.1 == lk
                    · rw [heq, if_pos hx]
                      have hrec : kv1.2 = aliased :=
                        assocFind_some_unique hk1 hfb kv1 hkv1 (by simpa using hx)
                      simp only [hrec, setIdx_ok_length hs2]
                      exact hrec ▸ hP1 kv1 hkv1
                    · rw [heq, if_neg hx]
                      exact hP1 kv1 hkv1
                  cases hfc : assocFind (assocUpdate (assocUpdate asgn
                      (item.topic, item.part)
                      (fun r => { r with replicas := newReplicas })) lk
                      (fun r => { r with replicas := written }))
                      (item.topic, item.part) with
                  | none => simp [hfc, ebind_err, ethrow_def, emap_err] at h
                  | some rec2 =>
                    simp only [hfc] at h
                    cases hs3 : setIdx rec2.log_dirs item.replica_id
                        (LogDir.path (rstripSlash item.destMount)) with
                    | error e => simp [hs3, ebind_err, ethrow_def, emap_err] at h
                    | ok newLogs =>
                      simp only [hs3, ebind_ok, epure_def, ethrow_def, emap_ok, Except.ok.injEq,
                        Prod.mk.injEq] at h
                      obtain ⟨ha, hl⟩ := h
                      subst ha
                      constructor
                      · rw [assocUpdate_keys]; exact hk2
                      · intro kv hkv
                        obtain ⟨kv1, hkv1, heq⟩ := assocUpdate_mem hkv
                        by_cases hx : kv1.1 == (item.topic, item.part)
                        · rw [heq, if_pos hx]
                          have hrec : kv1.2 = rec2 :=
                            assocFind_some_unique hk2 hfc kv1 hkv1 (by simpa using hx)
                          simp only [hrec, setIdx_ok_length hs3]
                          exact hrec ▸ hP2 kv1 hkv1
                        · rw [heq, if_neg hx]
                          exact hP2 kv1 hkv1

theorem gen_fold_preserves {partitions : List ((Nat × Nat) × (Int × List Int))}
    {pick : List Nat → Nat} :
    ∀ (l : List MovedItem) (s s' : Assignments × Option (Nat × Nat)),
    List.foldlM (gen_step partitions pick) s l = .ok s' →
    (s.1.map Prod.fst).Nodup →
    (∀ kv ∈ s.1, kv.2.replicas.length = kv.2.log_dirs.length) →
    (s'.1.map Prod.fst).Nodup ∧
      ∀ kv ∈ s'.1, kv.2.replicas.length = kv.2.log_dirs.length := by
  intro l
  induction l with
  | nil =>
    intro s s' h hk hP
    simp only [List.foldlM_nil, epure_def, Except.ok.injEq] at h
    exact h ▸ ⟨hk, hP⟩
  | cons item rest ih =>
    intro s s' h hk hP
    obtain ⟨asgn, last⟩ := s
    rw [List.foldlM_cons] at h
    cases hstep : gen_step partitions pick (asgn, last) item with
    | error e => rw [hstep, ebind_err] at h; cases h
    | ok s1 =>
      rw [hstep, ebind_ok] at h
      obtain ⟨asgn1, last1⟩ := s1
      obtain ⟨hk1, hP1⟩ := gen_step_preserves hstep hk hP
      exact ih (asgn1, last1) s' h hk1 hP1

/-- C5: every partition record emitted by `gen_reassignment_file` has a
duplicate-free `replicas` list and `len(replicas) == len(log_dirs)`; a
record whose replicas list still holds a duplicate after all updates is
dropped by the final filter and never emitted.  Holds for every partition
map, every move list and every outcome of the `random.choice` oracle. -/
theorem gen_reassignment_file_valid
    (partitions : List ((Nat × Nat) × (Int × List Int)))
    (moved : List MovedItem) (pick : List Nat → Nat) (doc : ReassignDoc)
    (h : gen_reassignment_file partitions moved pick = .ok doc) :
    ∀ r ∈ doc.partitions, r.replicas.Nodup ∧
      r.replicas.length = r.log_dirs.length := by
  simp only [gen_reassignment_file] at h
  cases hf : List.foldlM (gen_step partitions pick) ([], none) moved with
  | error e => rw [hf, ebind_err] at h; cases h
  | ok s' =>
    rw [hf] at h
    obtain ⟨asgn, last⟩ := s'
    simp only [ebind_ok, epure_def, Except.ok.injEq] at h
    obtain ⟨-, hP⟩ :=
      gen_fold_preserves moved ([], none) (asgn, last) hf (by simp) (by simp)
    intro r hr
    rw [← h] at hr
    simp only [gen_emit, List.mem_filterMap] at hr
    obtain ⟨rec, hrec, hcond⟩ := hr
    obtain ⟨kv, hkv, hkv2⟩ := List.mem_map.mp hrec
    split at hcond
    · next hlen =>
      simp only [Option.some.injEq] at hcond
      have hnd : rec.replicas.Nodup := nodup_of_length_eq_dedup hlen
      have hlen2 : rec.replicas.length = rec.log_dirs.length := by
        rw [← hkv2] at *
        exact hP kv hkv
      rw [← hcond]
      exact ⟨hnd, hlen2⟩
    · cases hcond

/-- C5 witness: the statement applied to a concrete builder run. -/
theorem gen_reassignment_file_valid_witness :
    ∃ doc, gen_reassignment_file exParts exMoves pickHead = .ok doc ∧
      ∀ r ∈ doc.partitions, r.replicas.Nodup ∧
        r.replicas.length = r.log_dirs.length := by
  refine ⟨_, rfl, ?_⟩
  exact gen_reassignment_file_valid exParts exMoves pickHead _ rfl

/-- C6: the claim says a second move touching an existing (topic, partition)
record applies the replica substitution, the anti-collision repositioning
and the `log_dirs` update to that same record and leaves every other
partition's record unchanged.  On the code the repositioning line
`replicas[old_replica_pos] = old_replica` writes through the stale local
`replicas` — an alias of the most recently *created* record's list.
Evaluating the builder on `exParts`/`exMoves`: the third move updates
record (0,0), whose replicas become [2,9] (the displaced broker 1 is never
repositioned into it), while record (1,0) — created as [4,3] and touched
by no later move — is rewritten to [1,3]. -/
theorem gen_reassignment_corrupts_sibling :
    ∃ doc, gen_reassignment_file exParts exMoves pickHead = .ok doc ∧
      doc.partitions.map (fun r => (r.topic, r.part, r.replicas)) =
        [(0, 0, [2, 9]), (1, 0, [1, 3])] ∧
      [(1 : Int), 3] ≠ [(4 : Int), 3] :=
  ⟨_, rfl, rfl, by decide⟩

theorem planned_sort_nid (items : List Item) (nd : Node) :
    (Node.planned_sort items nd).nid = nd.nid := rfl

theorem planned_sort_capacity (items : List Item) (nd : Node) :
    (Node.planned_sort items nd).capacity = nd.capacity := rfl

theorem planned_sort_initialItems (items : List Item) (nd : Node) :
    (Node.planned_sort items nd).initialItems = nd.initialItems := rfl

theorem planned_sort_items_perm (items : List Item) (nd : Node) :
    (Node.planned_sort items nd).plannedItems.Perm nd.plannedItems :=
  stableSort_perm _ _

theorem sumSizes_perm (items : List Item) {l₁ l₂ : List ItemId} (h : l₁.Perm l₂) :
    sumSizes items l₁ = sumSizes items l₂ :=
  (h.map _).sum_eq

theorem sumSizes_append (items : List Item) (l₁ l₂ : List ItemId) :
    sumSizes items (l₁ ++ l₂) = sumSizes items l₁ + sumSizes items l₂ := by
  simp [sumSizes]

theorem sumSizes_erase (items : List Item) {l : List ItemId} {i : ItemId}
    (h : i ∈ l) :
    sumSizes items (l.erase i) = sumSizes items l - (items.getD i default).size := by
  have hp : l.Perm (i :: l.erase i) := List.perm_cons_erase h
  have hs := sumSizes_perm items hp
  simp only [sumSizes, List.map_cons, List.sum_cons] at hs ⊢
  omega

theorem planned_sort_used (items : List Item) (nd : Node) :
    (Node.planned_sort items nd).plannedUsed = sumSizes items nd.plannedItems := by
  show sumSizes items (stableSort _ nd.plannedItems) = sumSizes items nd.plannedItems
  exact sumSizes_perm items (stableSort_perm _ _)

theorem resort_items (st : St) : (resort st).items = st.items := rfl

theorem resort_nodes_perm (st : St) :
    (resort st).nodes.Perm (st.nodes.map (Node.planned_sort st.items)) :=
  stableSort_perm _ _

theorem resort_mem {st : St} {nd : Node} (h : nd ∈ (resort st).nodes) :
    ∃ nd0 ∈ st.nodes, nd = Node.planned_sort st.items nd0 := by
  have h1 := (resort_nodes_perm st).mem_iff.mp h
  obtain ⟨nd0, hnd0, heq⟩ := List.mem_map.mp h1
  exact ⟨nd0, hnd0, heq.symm⟩

theorem resort_used {st : St} {nd : Node} (h : nd ∈ (resort st).nodes) :
    nd.plannedUsed = sumSizes st.items nd.plannedItems := by
  obtain ⟨nd0, _, rfl⟩ := resort_mem h
  rw [planned_sort_used]
  exact (sumSizes_perm _ (planned_sort_items_perm st.items nd0)).symm

theorem resort_nid_perm (st : St) :
    ((resort st).nodes.map Node.nid).Perm (st.nodes.map Node.nid) := by
  have h := (resort_nodes_perm st).map Node.nid
  rw [List.map_map] at h
  have h2 : st.nodes.map (Node.nid ∘ Node.planned_sort st.items) =
      st.nodes.map Node.nid := List.map_congr_left (fun nd _ => rfl)
  rw [h2] at h
  exact h

theorem resort_nodup {st : St} (h : (st.nodes.map Node.nid).Nodup) :
    ((resort st).nodes.map Node.nid).Nodup :=
  (resort_nid_perm st).nodup_iff.mpr h

theorem resort_multiset (st : St) : plannedMultiset (resort st) = plannedMultiset st := by
  unfold plannedMultiset
  have h := ((resort_nodes_perm st).map
    (fun nd => (nd.plannedItems : Multiset ItemId))).sum_eq
  rw [h, List.map_map]
  congr 1
  apply List.map_congr_left
  intro nd _
  simp only [Function.comp_apply]
  exact Multiset.coe_eq_coe.mpr (planned_sort_items_perm st.items nd)

theorem pvariance_cons (a : ℚ) (l : List ℚ) :
    pvariance (a :: l) =
      .ok ((((a :: l).map
          (fun x => (x - (a :: l).sum / (((a :: l).length : Nat) : ℚ)) ^ 2)).sum) /
        (((a :: l).length : Nat) : ℚ)) := rfl

theorem pvariance_perm {xs ys : List ℚ} (h : xs.Perm ys) :
    pvariance xs = pvariance ys := by
  cases xs with
  | nil =>
    have : ys = [] := h.nil_eq.symm
    rw [this]
  | cons a l =>
    cases ys with
    | nil => exact absurd h.length_eq (by simp)
    | cons b m =>
      rw [pvariance_cons, pvariance_cons]
      have hlen : ((a :: l).length : Nat) = ((b :: m).length : Nat) := h.length_eq
      have hsum : (a :: l).sum = (b :: m).sum := h.sum_eq
      have hmap := (h.map
        (fun x => (x - (a :: l).sum / (((a :: l).length : Nat) : ℚ)) ^ 2)).sum_eq
      rw [Except.ok.injEq]
      rw [hmap, hlen, hsum]

theorem item_can_move_to_elim {st : St} {i : ItemId} {nd : Node}
    (h : Item.can_move_to st i nd = true) :
    (st.item i).initialOwner ≠ some nd.nid ∧
      nd.plannedUsed + (st.item i).size ≤ nd.capacity := by
  simp only [Item.can_move_to] at h
  by_cases h1 : (st.item i).initialOwner == some nd.nid
  · rw [if_pos h1] at h; cases h
  · rw [if_neg h1] at h
    by_cases h2 : nd.capacity < nd.plannedUsed + (st.item i).size
    · rw [if_pos (by simpa using h2)] at h; cases h
    · refine ⟨by simpa using h1, by omega⟩

theorem can_move_to_elim {st : St} {i : ItemId} {nd : Node}
    (h : PartitionReplica.can_move_to st i nd = true) :
    (st.item i).is_leader = false ∧ (st.item i).initialOwner ≠ some nd.nid ∧
      nd.plannedUsed + (st.item i).size ≤ nd.capacity := by
  simp only [PartitionReplica.can_move_to] at h
  by_cases hl : (st.item i).is_leader
  · rw [if_pos hl] at h; cases h
  · rw [if_neg hl] at h
    by_cases hb : Item.can_move_to st i nd = true
    · obtain ⟨h1, h2⟩ := item_can_move_to_elim hb
      exact ⟨by simpa using hl, h1, h2⟩
    · simp only [hb, Bool.false_eq_true, not_false_iff, if_true] at h

theorem iter_large_go_mem {st : St} {settings : PlanSettings} {lastN : Node} :
    ∀ (L : List Node) (i : ItemId), i ∈ iter_large_go st settings lastN L →
    (∃ nd ∈ L, i ∈ nd.plannedItems) ∧ (st.item i).has_moved = false := by
  intro L
  induction L with
  | nil => intro i h; cases h
  | cons nd rest ih =>
    intro i h
    simp only [iter_large_go] at h
    split at h
    · cases h
    · rcases List.mem_append.mp h with h' | h'
      · obtain ⟨hmem, hpred⟩ := List.mem_filter.mp h'
        exact ⟨⟨nd, List.mem_cons_self nd rest, hmem⟩, by simpa using hpred⟩
      · obtain ⟨⟨nd', hnd', hmem⟩, hmv⟩ := ih i h'
        exact ⟨⟨nd', List.mem_cons_of_mem nd hnd', hmem⟩, hmv⟩

theorem iter_large_mem {settings : PlanSettings} {st : St} {i : ItemId}
    (h : i ∈ iter_large_items settings st) :
    (∃ nd ∈ st.nodes, i ∈ nd.plannedItems) ∧ (st.item i).has_moved = false := by
  unfold iter_large_items at h
  cases hl : st.nodes.getLast? with
  | none => rw [hl] at h; cases h
  | some lastN =>
    rw [hl] at h
    exact iter_large_go_mem st.nodes i h

theorem current_owner_of_not_moved {it : Item} (h : it.has_moved = false) :
    it.current_owner = it.initialOwner := by
  unfold Item.current_owner
  cases hp : it.plannedOwner with
  | none => rfl
  | some n => rw [Item.has_moved, hp] at h; cases h

theorem update_sum_eq (s : NodeId) (g : Node → Node) :
    ∀ (l : List Node), (l.map Node.nid).Nodup → ∀ nd0 ∈ l, nd0.nid = s →
    ((l.map (fun nd => if nd.nid == s then g nd else nd)).map
        (fun nd => (nd.plannedItems : Multiset ItemId))).sum +
      (nd0.plannedItems : Multiset ItemId) =
    (l.map (fun nd => (nd.plannedItems : Multiset ItemId))).sum +
      ((g nd0).plannedItems : Multiset ItemId) := by
  intro l
  induction l with
  | nil => intro _ nd0 h0; cases h0
  | cons a t ih =>
    intro hnd nd0 h0 hs
    simp only [List.map_cons, List.nodup_cons] at hnd
    rcases List.mem_cons.mp h0 with rfl | h0'
    · have ha : (nd0.nid == s) = true := by simp [hs]
      simp only [List.map_cons, ha, if_true, List.sum_cons]
      have ht : t.map (fun nd => if nd.nid == s then g nd else nd) = t := by
        conv_rhs => rw [show t = t.map id from (List.map_id t).symm]
        apply List.map_congr_left
        intro x hx
        have hxne : x.nid ≠ s := by
          intro hxs
          apply hnd.1
          have hmm := List.mem_map_of_mem Node.nid hx
          rw [hxs, ← hs] at hmm
          exact hmm
        simp [hxne]
      rw [ht]
      abel
    · have ha : (a.nid == s) = false := by
        have : a.nid ≠ s := by
          intro has
          exact hnd.1 (by
            have := List.mem_map_of_mem Node.nid h0'
            rw [hs, ← has] at this
            exact this)
        simp [this]
      simp only [List.map_cons, ha, if_false, List.sum_cons, Bool.false_eq_true]
      have := ih hnd.2 nd0 h0' hs
      calc ((a.plannedItems : Multiset ItemId) +
            ((t.map (fun nd => if nd.nid == s then g nd else nd)).map
              (fun nd => (nd.plannedItems : Multiset ItemId))).sum) +
            (nd0.plannedItems : Multiset ItemId)
          = (a.plannedItems : Multiset ItemId) +
            (((t.map (fun nd => if nd.nid == s then g nd else nd)).map
              (fun nd => (nd.plannedItems : Multiset ItemId))).sum +
              (nd0.plannedItems : Multiset ItemId)) := by abel
        _ = (a.plannedItems : Multiset ItemId) +
            ((t.map (fun nd => (nd.plannedItems : Multiset ItemId))).sum +
              ((g nd0).plannedItems : Multiset ItemId)) := by rw [this]
        _ = ((a.plannedItems : Multiset ItemId) +
            (t.map (fun nd => (nd.plannedItems : Multiset ItemId))).sum) +
              ((g nd0).plannedItems : Multiset ItemId) := by abel

theorem update_map_nid (s' : NodeId) (g : Node → Node)
    (hg : ∀ nd, (g nd).nid = nd.nid) (l : List Node) :
    ((l.map (fun nd => if nd.nid == s' then g nd else nd)).map Node.nid) =
      l.map Node.nid := by
  rw [List.map_map]
  apply List.map_congr_left
  intro x _
  simp only [Function.comp_apply]
  split
  · exact hg x
  · rfl

theorem move_items_eq {st : St} {i : ItemId} {dest : NodeId} {st' : St}
    (h : move st i dest = .ok st') :
    st'.items = st.items.set i { st.item i with plannedOwner := some dest } := by
  obtain ⟨-, -, -, -, -, hitems, -⟩ := move_ok_elim h
  exact hitems

theorem move_static {st : St} {i : ItemId} {dest : NodeId} {st' : St}
    (h : move st i dest = .ok st') :
    ∀ j, itemStatic (st'.item j) = itemStatic (st.item j) := by
  intro j
  show itemStatic (st'.items.getD j default) = itemStatic (st.items.getD j default)
  rw [move_items_eq h]
  exact set_preserves_proj st.items i { st.item i with plannedOwner := some dest }
    itemStatic rfl j

theorem move_initialOwner {st : St} {i : ItemId} {dest : NodeId} {st' : St}
    (h : move st i dest = .ok st') :
    ∀ j, (st'.item j).initialOwner = (st.item j).initialOwner := by
  intro j
  show (st'.items.getD j default).initialOwner = (st.items.getD j default).initialOwner
  rw [move_items_eq h]
  exact set_preserves_proj st.items i { st.item i with plannedOwner := some dest }
    Item.initialOwner rfl j

theorem move_nid_map {st : St} {i : ItemId} {dest : NodeId} {st' : St}
    (h : move st i dest = .ok st') :
    st'.nodes.map Node.nid = st.nodes.map Node.nid := by
  obtain ⟨s, src, -, -, -, -, hnodes⟩ := move_ok_elim h
  rw [hnodes]
  rw [update_map_nid dest (fun nd => { nd with plannedItems := nd.plannedItems ++ [i] })
    (fun nd => rfl)]
  rw [update_map_nid src.nid
    (fun nd => { nd with plannedItems := nd.plannedItems.erase i }) (fun nd => rfl)]

theorem move_conserves {st : St} {i : ItemId} {dest : NodeId} {st' : St}
    (hnd : (st.nodes.map Node.nid).Nodup)
    (hdest : ∃ nd ∈ st.nodes, nd.nid = dest)
    (hne : (st.item i).current_owner ≠ some dest)
    (h : move st i dest = .ok st') :
    plannedMultiset st' = plannedMultiset st := by
  obtain ⟨s, src, hco, hf, hmem, hitems, hnodes⟩ := move_ok_elim h
  obtain ⟨dest0, hdest0, hdnid⟩ := hdest
  have hsrc_mem : src ∈ st.nodes := List.mem_of_find?_eq_some hf
  have hsrc_nid : src.nid = s := by simpa using List.find?_some hf
  have hsd : s ≠ dest := by
    rw [hco] at hne
    simpa using hne
  have e1 := update_sum_eq src.nid
    (fun nd => { nd with plannedItems := nd.plannedItems.erase i })
    st.nodes hnd src hsrc_mem rfl
  have hl1nid := update_map_nid src.nid
    (fun nd => { nd with plannedItems := nd.plannedItems.erase i })
    (fun nd => rfl) st.nodes
  have hl1nd : (((st.nodes.map (fun nd => if nd.nid == src.nid then
      { nd with plannedItems := nd.plannedItems.erase i } else nd)).map
      Node.nid)).Nodup := by
    rw [hl1nid]; exact hnd
  have hdne : (dest0.nid == src.nid) = false := by
    simp only [beq_eq_false_iff_ne, ne_eq]
    rw [hdnid, hsrc_nid]
    exact fun hh => hsd hh.symm
  have hd1 : dest0 ∈ st.nodes.map (fun nd => if nd.nid == src.nid then
      { nd with plannedItems := nd.plannedItems.erase i } else nd) := by
    refine List.mem_map.mpr ⟨dest0, hdest0, ?_⟩
    rw [hdne]
    simp
  have e2 := update_sum_eq dest
    (fun nd => { nd with plannedItems := nd.plannedItems ++ [i] })
    (st.nodes.map (fun nd => if nd.nid == src.nid then
      { nd with plannedItems := nd.plannedItems.erase i } else nd))
    hl1nd dest0 hd1 hdnid
  have hsplit : (src.plannedItems : Multiset ItemId) =
      (src.plannedItems.erase i : Multiset ItemId) + {i} := by
    have hp : src.plannedItems.Perm (i :: src.plannedItems.erase i) :=
      List.perm_cons_erase hmem
    have hcc := Multiset.coe_eq_coe.mpr hp
    rw [hcc, ← Multiset.cons_coe, ← Multiset.singleton_add]
    exact add_comm _ _
  unfold plannedMultiset
  rw [hnodes]
  have key : ((((st.nodes.map (fun nd => if nd.nid == src.nid then
        { nd with plannedItems := nd.plannedItems.erase i } else nd)).map
        (fun nd => if nd.nid == dest then
          { nd with plannedItems := nd.plannedItems ++ [i] } else nd)).map
        (fun nd => (nd.plannedItems : Multiset ItemId))).sum) +
        ((dest0.plannedItems : Multiset ItemId) +
          (src.plannedItems : Multiset ItemId)) =
      ((st.nodes.map (fun nd => (nd.plannedItems : Multiset ItemId))).sum) +
        ((dest0.plannedItems : Multiset ItemId) +
          (src.plannedItems : Multiset ItemId)) := by
    calc ((((st.nodes.map (fun nd => if nd.nid == src.nid then
          { nd with plannedItems := nd.plannedItems.erase i } else nd)).map
          (fun nd => if nd.nid == dest then
            { nd with plannedItems := nd.plannedItems ++ [i] } else nd)).map
          (fun nd => (nd.plannedItems : Multiset ItemId))).sum) +
          ((dest0.plannedItems : Multiset ItemId) +
            (src.plannedItems : Multiset ItemId))
        = (((((st.nodes.map (fun nd => if nd.nid == src.nid then
            { nd with plannedItems := nd.plannedItems.erase i } else nd)).map
            (fun nd => if nd.nid == dest then
              { nd with plannedItems := nd.plannedItems ++ [i] } else nd)).map
            (fun nd => (nd.plannedItems : Multiset ItemId))).sum) +
            (dest0.plannedItems : Multiset ItemId)) +
            (src.plannedItems : Multiset ItemId) := by abel
      _ = ((((st.nodes.map (fun nd => if nd.nid == src.nid then
            { nd with plannedItems := nd.plannedItems.erase i } else nd)).map
            (fun nd => (nd.plannedItems : Multiset ItemId))).sum) +
            ((dest0.plannedItems ++ [i] : List ItemId) : Multiset ItemId)) +
            (src.plannedItems : Multiset ItemId) := by rw [e2]
      _ = ((((st.nodes.map (fun nd => if nd.nid == src.nid then
            { nd with plannedItems := nd.plannedItems.erase i } else nd)).map
            (fun nd => (nd.plannedItems : Multiset ItemId))).sum) +
            (src.plannedItems : Multiset ItemId)) +
            ((dest0.plannedItems ++ [i] : List ItemId) : Multiset ItemId) := by abel
      _ = (((st.nodes.map (fun nd => (nd.plannedItems : Multiset ItemId))).sum) +
            ((src.plannedItems.erase i : List ItemId) : Multiset ItemId)) +
            ((dest0.plannedItems ++ [i] : List ItemId) : Multiset ItemId) := by rw [e1]
      _ = ((st.nodes.map (fun nd => (nd.plannedItems : Multiset ItemId))).sum) +
            ((dest0.plannedItems : Multiset ItemId) +
              (src.plannedItems : Multiset ItemId)) := by
          rw [hsplit]
          simp only [← Multiset.coe_add]
          abel
  exact add_right_cancel key

theorem cleared_compose {a b : Item}
    (h : b = a ∨ b = { a with plannedOwner := none }) :
    { b with plannedOwner := none } = { a with plannedOwner := none } := by
  rcases h with rfl | rfl <;> rfl

theorem plan_init_items_spec (nid : NodeId) :
    ∀ (ids : List ItemId) (items : List Item),
    (∀ i ∈ ids, (items.getD i default).initialOwner = some nid) →
    ∃ items', plan_init_items nid ids items = .ok items' ∧
      (∀ j, items'.getD j default = items.getD j default ∨
        items'.getD j default = { items.getD j default with plannedOwner := none }) ∧
      (∀ i ∈ ids, items'.getD i default =
        { items.getD i default with plannedOwner := none }) := by
  intro ids
  induction ids with
  | nil =>
    intro items _
    exact ⟨items, rfl, fun j => Or.inl rfl, by simp⟩
  | cons i rest ih =>
    intro items hown
    have howni : (items.getD i default).initialOwner = some nid :=
      hown i (List.mem_cons_self i rest)
    have hi : i < items.length := by
      by_contra hcon
      rw [List.getD_eq_default _ _ (Nat.le_of_not_lt hcon)] at howni
      cases howni
    have hstep : plan_init_items nid (i :: rest) items =
        plan_init_items nid rest
          (items.set i { items.getD i default with plannedOwner := none }) := by
      simp only [plan_init_items, howni, beq_self_eq_true, if_true]
    have hown' : ∀ i' ∈ rest,
        ((items.set i { items.getD i default with plannedOwner := none }).getD i'
          default).initialOwner = some nid := by
      intro i' hi'
      rw [getD_set_eq_ite]
      split
      · exact howni
      · exact hown i' (List.mem_cons_of_mem i hi')
    obtain ⟨items', hrun, hdisj, hall⟩ := ih _ hown'
    refine ⟨items', hstep ▸ hrun, ?_, ?_⟩
    · intro j
      rcases hdisj j with hc | hc
      · rw [hc, getD_set_eq_ite]
        split
        · next hcj => exact Or.inr (by rw [hcj.1])
        · exact Or.inl rfl
      · rw [hc, getD_set_eq_ite]
        split
        · next hcj => exact Or.inr (by rw [hcj.1])
        · exact Or.inr rfl
    · intro i'' hi''
      rcases List.mem_cons.mp hi'' with rfl | hrest
      · have h1 : (items.set i'' { items.getD i'' default with plannedOwner := none }).getD
            i'' default = { items.getD i'' default with plannedOwner := none } := by
          rw [getD_set_eq_ite, if_pos ⟨rfl, hi⟩]
        rcases hdisj i'' with hc | hc
        · rw [hc, h1]
        · rw [hc, h1]
      · have hh := hall i'' hrest
        rw [hh, getD_set_eq_ite]
        split
        · next hcj => rw [hcj.1]
        · rfl

theorem plan_init_go_spec :
    ∀ (nds : List Node) (items : List Item),
    (∀ nd ∈ nds, ∀ i ∈ nd.initialItems,
      (items.getD i default).initialOwner = some nd.nid) →
    ∃ items', plan_init_go nds items = .ok items' ∧
      (∀ j, items'.getD j default = items.getD j default ∨
        items'.getD j default = { items.getD j default with plannedOwner := none }) ∧
      (∀ nd ∈ nds, ∀ i ∈ nd.initialItems, items'.getD i default =
        { items.getD i default with plannedOwner := none }) := by
  intro nds
  induction nds with
  | nil =>
    intro items _
    exact ⟨items, rfl, fun j => Or.inl rfl, by simp⟩
  | cons nd rest ih =>
    intro items hown
    obtain ⟨items1, hrun1, hdisj1, hall1⟩ :=
      plan_init_items_spec nd.nid nd.initialItems items
        (hown nd (List.mem_cons_self nd rest))
    have hown' : ∀ nd' ∈ rest, ∀ i ∈ nd'.initialItems,
        (items1.getD i default).initialOwner = some nd'.nid := by
      intro nd' hnd' i hi
      rcases hdisj1 i with hc | hc <;> rw [hc] <;>
        exact hown nd' (List.mem_cons_of_mem nd hnd') i hi
    obtain ⟨items', hrun, hdisj, hall⟩ := ih items1 hown'
    have hstep : plan_init_go (nd :: rest) items = plan_init_go rest items1 := by
      simp only [plan_init_go, hrun1, ebind_ok]
    refine ⟨items', hstep ▸ hrun, ?_, ?_⟩
    · intro j
      rcases hdisj j with hc | hc <;> rcases hdisj1 j with hd | hd
      · exact Or.inl (hc.trans hd)
      · exact Or.inr (hc.trans hd)
      · exact Or.inr (by rw [hc, hd])
      · exact Or.inr (by rw [hc, hd])
    · intro nd' hnd' i hi
      rcases List.mem_cons.mp hnd' with rfl | hrest
      · have h1 := hall1 i hi
        rcases hdisj i with hc | hc
        · rw [hc, h1]
        · rw [hc, cleared_compose (Or.inr h1)]
      · rw [hall nd' hrest i hi, cleared_compose (hdisj1 i)]

theorem plan_init_spec {st : St}
    (hown : ∀ nd ∈ st.nodes, ∀ i ∈ nd.initialItems,
      (st.item i).initialOwner = some nd.nid) :
    ∃ items', plan_init st = .ok
        { nodes := st.nodes.map (fun nd => { nd with plannedItems := nd.initialItems }),
          items := items' } ∧
      (∀ j, items'.getD j default = st.items.getD j default ∨
        items'.getD j default = { st.items.getD j default with plannedOwner := none }) ∧
      (∀ nd ∈ st.nodes, ∀ i ∈ nd.initialItems, items'.getD i default =
        { st.items.getD i default with plannedOwner := none }) := by
  obtain ⟨items', hrun, hdisj, hall⟩ := plan_init_go_spec st.nodes st.items hown
  refine ⟨items', ?_, hdisj, hall⟩
  simp only [plan_init, hrun, ebind_ok, epure_def]

theorem plan_one_multiset {st : St} {settings : PlanSettings}
    {r : Option (List ItemId)} {st₁ : St}
    (hnd : (st.nodes.map Node.nid).Nodup)
    (h : plan_one st settings = .ok (r, st₁)) :
    plannedMultiset st₁ = plannedMultiset st := by
  cases r with
  | none => rw [plan_one_none h, resort_multiset]
  | some mv =>
    obtain ⟨cur, hcur, i, hi, hstep⟩ := plan_one_some h
    obtain ⟨-, -, nd, hndmem, hcmt, -, hmv⟩ := plan_step_some _ _ _ _ _ _ hstep
    have hnotmoved := (iter_large_mem hi).2
    have hco := current_owner_of_not_moved hnotmoved
    have hne : ((resort st).item i).current_owner ≠ some nd.nid := by
      rw [hco]
      exact (can_move_to_elim hcmt).2.1
    have := move_conserves (resort_nodup hnd) ⟨nd, hndmem, rfl⟩ hne hmv
    rw [this, resort_multiset]

theorem plan_one_nidperm {st : St} {settings : PlanSettings}
    {r : Option (List ItemId)} {st₁ : St}
    (h : plan_one st settings = .ok (r, st₁)) :
    (st₁.nodes.map Node.nid).Perm (st.nodes.map Node.nid) := by
  cases r with
  | none => rw [plan_one_none h]; exact resort_nid_perm st
  | some mv =>
    obtain ⟨cur, hcur, i, hi, hstep⟩ := plan_one_some h
    obtain ⟨-, -, nd, hndmem, -, -, hmv⟩ := plan_step_some _ _ _ _ _ _ hstep
    rw [move_nid_map hmv]
    exact resort_nid_perm st

theorem plan_rounds_multiset {settings : PlanSettings} :
    ∀ (k : Nat) (st : St) (acc res : List ItemId) (st₁ : St),
    (st.nodes.map Node.nid).Nodup →
    plan_rounds settings k st acc = .ok (res, st₁) →
    plannedMultiset st₁ = plannedMultiset st := by
  intro k
  induction k with
  | zero =>
    intro st acc res st₁ _ h
    simp only [plan_rounds, epure_def, Except.ok.injEq, Prod.mk.injEq] at h
    rw [← h.2]
  | succ k ih =>
    intro st acc res st₁ hnd h
    cases hone : plan_one st settings with
    | error e => simp [plan_rounds, hone, ebind_err] at h
    | ok p =>
      obtain ⟨r, st₂⟩ := p
      simp only [plan_rounds, hone, ebind_ok] at h
      cases r with
      | none =>
        simp only [epure_def, Except.ok.injEq, Prod.mk.injEq] at h
        rw [← h.2]
        exact plan_one_multiset hnd hone
      | some mv =>
        have hnd2 : (st₂.nodes.map Node.nid).Nodup :=
          (plan_one_nidperm hone).nodup_iff.mpr hnd
        rw [ih st₂ (acc ++ mv) res st₁ hnd2 h]
        exact plan_one_multiset hnd hone

/-- C2: conservation.  (a) The `move` primitive — applied to a destination
node present in the state and different from the item's current owner, as
at `plan`'s call sites — preserves the multiset of items planned across
all nodes (it erases the item from its unique current owner's list and
appends it to the unique destination's list).  (b) Every round `plan_one`
accepts preserves that multiset.  (c) A completed `plan` run leaves the
multiset of all planned items equal to the multiset of all initially held
items. -/
theorem plan_conserves (st : St) (settings : PlanSettings) (hWF : WF st) :
    (∀ (st₀ : St) (i : ItemId) (dest : NodeId) (st₁ : St),
        (st₀.nodes.map Node.nid).Nodup →
        (∃ nd ∈ st₀.nodes, nd.nid = dest) →
        (st₀.item i).current_owner ≠ some dest →
        move st₀ i dest = .ok st₁ →
        plannedMultiset st₁ = plannedMultiset st₀) ∧
    (∀ (st₀ : St) (r : Option (List ItemId)) (st₁ : St),
        (st₀.nodes.map Node.nid).Nodup →
        plan_one st₀ settings = .ok (r, st₁) →
        plannedMultiset st₁ = plannedMultiset st₀) ∧
    (∀ (mv : List ItemId) (st₁ : St), plan st settings = .ok (mv, st₁) →
        plannedMultiset st₁ = initialMultiset st) := by
  refine ⟨fun st₀ i dest st₁ hnd hdest hne h =>
    move_conserves hnd hdest hne h,
    fun st₀ r st₁ hnd h => plan_one_multiset hnd h, ?_⟩
  intro mv st₁ h
  obtain ⟨items', hinit, hdisj, hall⟩ := plan_init_spec hWF.2.2.2
  unfold plan at h
  rw [hinit, ebind_ok] at h
  have hnd0 : (((st.nodes.map
      (fun nd => { nd with plannedItems := nd.initialItems })).map Node.nid)).Nodup := by
    rw [List.map_map]
    have heq : st.nodes.map
        (Node.nid ∘ fun nd => { nd with plannedItems := nd.initialItems }) =
        st.nodes.map Node.nid := List.map_congr_left (fun nd _ => rfl)
    rw [heq]
    exact hWF.1
  have hM := plan_rounds_multiset settings.max_iters _ [] mv st₁ hnd0 h
  rw [hM]
  unfold plannedMultiset initialMultiset
  simp only [List.map_map]
  congr 1

theorem is_leader_of_static {a b : Item} (h : itemStatic a = itemStatic b) :
    a.is_leader = b.is_leader :=
  congrArg (fun p => p.2.2.2.2) h

theorem size_of_static {a b : Item} (h : itemStatic a = itemStatic b) :
    a.size = b.size :=
  congrArg (fun p => p.1) h

theorem sumSizes_congr {items₁ items₂ : List Item}
    (h : ∀ j, itemStatic (items₁.getD j default) = itemStatic (items₂.getD j default))
    (l : List ItemId) : sumSizes items₁ l = sumSizes items₂ l := by
  unfold sumSizes
  congr 1
  exact List.map_congr_left (fun i _ => size_of_static (h i))

theorem size_nonneg_getD {items : List Item} (h : ∀ it ∈ items, 0 ≤ it.size) :
    ∀ j, 0 ≤ (items.getD j default).size := by
  intro j
  by_cases hj : j < items.length
  · rw [List.getD_eq_getElem items default hj]
    exact h _ (List.getElem_mem hj)
  · rw [List.getD_eq_default items default (Nat.le_of_not_lt hj)]
    exact le_refl 0

theorem plan_init_items_static (nid : NodeId) :
    ∀ (ids : List ItemId) (items items' : List Item),
    plan_init_items nid ids items = .ok items' →
    ∀ j, itemStatic (items'.getD j default) = itemStatic (items.getD j default) := by
  intro ids
  induction ids with
  | nil =>
    intro items items' h j
    simp only [plan_init_items, epure_def, Except.ok.injEq] at h
    rw [h]
  | cons i rest ih =>
    intro items items' h j
    simp only [plan_init_items] at h
    cases ho : (items.getD i default).initialOwner with
    | none =>
      simp only [ho] at h
      have hrec := ih _ _ h j
      rw [hrec]
      exact set_preserves_proj items i
        { items.getD i default with initialOwner := some nid, plannedOwner := none }
        itemStatic rfl j
    | some o =>
      simp only [ho] at h
      by_cases hoe : o == nid
      · rw [if_pos hoe] at h
        have hrec := ih _ _ h j
        rw [hrec]
        exact set_preserves_proj items i
          { items.getD i default with initialOwner := some o, plannedOwner := none }
          itemStatic rfl j
      · rw [if_neg hoe] at h
        cases h

theorem plan_init_go_static :
    ∀ (nds : List Node) (items items' : List Item),
    plan_init_go nds items = .ok items' →
    ∀ j, itemStatic (items'.getD j default) = itemStatic (items.getD j default) := by
  intro nds
  induction nds with
  | nil =>
    intro items items' h j
    simp only [plan_init_go, epure_def, Except.ok.injEq] at h
    rw [h]
  | cons nd rest ih =>
    intro items items' h j
    simp only [plan_init_go] at h
    cases h1 : plan_init_items nd.nid nd.initialItems items with
    | error e => rw [h1, ebind_err] at h; cases h
    | ok items1 =>
      rw [h1, ebind_ok] at h
      rw [ih _ _ h j]
      exact plan_init_items_static nd.nid nd.initialItems items items1 h1 j

theorem plan_init_ok_elim {st st₀ : St} (h : plan_init st = .ok st₀) :
    ∃ items', plan_init_go st.nodes st.items = .ok items' ∧
      st₀ =
        { nodes := st.nodes.map (fun nd => { nd with plannedItems := nd.initialItems }),
          items := items' } := by
  unfold plan_init at h
  cases hg : plan_init_go st.nodes st.items with
  | error e => rw [hg, ebind_err] at h; cases h
  | ok items' =>
    rw [hg, ebind_ok] at h
    simp only [epure_def, Except.ok.injEq] at h
    exact ⟨items', rfl, h.symm⟩

theorem plan_init_static {st st₀ : St} (h : plan_init st = .ok st₀) :
    ∀ j, itemStatic (st₀.item j) = itemStatic (st.item j) := by
  obtain ⟨items', hgo, rfl⟩ := plan_init_ok_elim h
  exact plan_init_go_static st.nodes st.items items' hgo

theorem plan_one_static {st : St} {settings : PlanSettings}
    {r : Option (List ItemId)} {st₁ : St}
    (h : plan_one st settings = .ok (r, st₁)) :
    ∀ j, itemStatic (st₁.item j) = itemStatic (st.item j) := by
  cases r with
  | none => rw [plan_one_none h]; intro j; rfl
  | some mv =>
    obtain ⟨cur, hcur, i, hi, hstep⟩ := plan_one_some h
    obtain ⟨-, -, nd, hndmem, -, -, hmv⟩ := plan_step_some _ _ _ _ _ _ hstep
    intro j
    have hms := move_static hmv j
    exact hms

theorem plan_rounds_leader {settings : PlanSettings} :
    ∀ (k : Nat) (st : St) (acc res : List ItemId) (st₁ : St),
    plan_rounds settings k st acc = .ok (res, st₁) →
    (∀ i ∈ acc, (st.item i).is_leader = false) →
    (∀ i ∈ res, (st.item i).is_leader = false) ∧
      (∀ j, itemStatic (st₁.item j) = itemStatic (st.item j)) := by
  intro k
  induction k with
  | zero =>
    intro st acc res st₁ h hacc
    simp only [plan_rounds, epure_def, Except.ok.injEq, Prod.mk.injEq] at h
    exact ⟨h.1 ▸ hacc, h.2 ▸ fun j => rfl⟩
  | succ k ih =>
    intro st acc res st₁ h hacc
    cases hone : plan_one st settings with
    | error e => simp [plan_rounds, hone, ebind_err] at h
    | ok p =>
      obtain ⟨r, st₂⟩ := p
      simp only [plan_rounds, hone, ebind_ok] at h
      cases r with
      | none =>
        simp only [epure_def, Except.ok.injEq, Prod.mk.injEq] at h
        exact ⟨h.1 ▸ hacc, h.2 ▸ plan_one_static hone⟩
      | some mv =>
        obtain ⟨cur, hcur, i, hi, hstep⟩ := plan_one_some hone
        obtain ⟨-, hmveq, nd, hndmem, hcmt, -, hmv⟩ :=
          plan_step_some _ _ _ _ _ _ hstep
        have hstat2 : ∀ j, itemStatic (st₂.item j) = itemStatic (st.item j) :=
          plan_one_static hone
        have hacc2 : ∀ i' ∈ acc ++ mv, (st₂.item i').is_leader = false := by
          intro i' hi'
          rcases List.mem_append.mp hi' with hi'' | hi''
          · rw [is_leader_of_static (hstat2 i')]
            exact hacc i' hi''
          · rw [hmveq] at hi''
            have : i' = i := by simpa using hi''
            subst this
            rw [is_leader_of_static (hstat2 i')]
            exact (can_move_to_elim hcmt).1
        obtain ⟨hres, hstat⟩ := ih st₂ (acc ++ mv) res st₁ h hacc2
        refine ⟨?_, fun j => (hstat j).trans (hstat2 j)⟩
        intro i' hi'
        rw [← is_leader_of_static (hstat2 i')]
        exact hres i' hi'

theorem resort_capacity {st : St}
    (hcap : ∀ nd ∈ st.nodes, sumSizes st.items nd.plannedItems ≤ nd.capacity) :
    ∀ nd ∈ (resort st).nodes,
      sumSizes st.items nd.plannedItems ≤ nd.capacity := by
  intro nd hnd
  obtain ⟨nd0, hnd0, rfl⟩ := resort_mem hnd
  rw [sumSizes_perm st.items (planned_sort_items_perm st.items nd0)]
  exact hcap nd0 hnd0

theorem plan_one_capacity {st : St} {settings : PlanSettings}
    {r : Option (List ItemId)} {st₁ : St}
    (hnd : (st.nodes.map Node.nid).Nodup)
    (hsz : ∀ j, 0 ≤ (st.item j).size)
    (hcap : ∀ nd ∈ st.nodes, sumSizes st.items nd.plannedItems ≤ nd.capacity)
    (h : plan_one st settings = .ok (r, st₁)) :
    ∀ nd ∈ st₁.nodes, sumSizes st₁.items nd.plannedItems ≤ nd.capacity := by
  have hcap1 := resort_capacity hcap
  cases r with
  | none =>
    rw [plan_one_none h]
    exact hcap1
  | some mv =>
    obtain ⟨cur, hcur, i, hi, hstep⟩ := plan_one_some h
    obtain ⟨-, -, nd, hndmem, hcmt, -, hmv⟩ := plan_step_some _ _ _ _ _ _ hstep
    have hnd1 : ((resort st).nodes.map Node.nid).Nodup := resort_nodup hnd
    obtain ⟨s, src, hco, hf, hmem, hitems, hnodes⟩ := move_ok_elim hmv
    have hsrc_mem : src ∈ (resort st).nodes := List.mem_of_find?_eq_some hf
    have hsrc_nid : src.nid = s := by simpa using List.find?_some hf
    have hnotmoved := (iter_large_mem hi).2
    have hinit_s : ((resort st).item i).initialOwner = some s := by
      rw [← current_owner_of_not_moved hnotmoved]
      exact hco
    have hsd : s ≠ nd.nid := by
      intro hcon
      exact (can_move_to_elim hcmt).2.1 (hcon ▸ hinit_s)
    have hstat : ∀ j, itemStatic (st₁.item j) = itemStatic (st.item j) := by
      intro j
      have hh := move_static hmv j
      exact hh
    have hsums : ∀ l, sumSizes st₁.items l = sumSizes st.items l :=
      fun l => sumSizes_congr hstat l
    intro nd' hnd'
    rw [hnodes] at hnd'
    obtain ⟨pre1, hpre1, heq2⟩ := List.mem_map.mp hnd'
    obtain ⟨pre, hpre, heq1⟩ := List.mem_map.mp hpre1
    rw [hsums]
    by_cases hps : pre.nid = s
    · have hpresrc : pre = src := mem_nid_eq hnd1 hpre hsrc_mem (by rw [hps, hsrc_nid])
      have hc1 : (pre.nid == src.nid) = true := by simp [hpresrc]
      have hc2 : ¬((({ pre with plannedItems := pre.plannedItems.erase i }).nid ==
          nd.nid) = true) := by
        simp only [beq_iff_eq]
        exact fun hcon => hsd (hps ▸ hcon)
      rw [← heq2, ← heq1, if_pos hc1, if_neg hc2]
      have hsub : sumSizes st.items (pre.plannedItems.erase i) ≤
          sumSizes st.items pre.plannedItems := by
        rw [sumSizes_erase st.items (hpresrc ▸ hmem)]
        have hszr : 0 ≤ (st.items.getD i default).size := hsz i
        omega
      exact le_trans hsub (hcap1 pre hpre)
    · have hc1 : ¬((pre.nid == src.nid) = true) := by
        simp only [beq_iff_eq]
        rw [hsrc_nid]
        exact hps
      by_cases hpd : pre.nid = nd.nid
      · have hprend : pre = nd := mem_nid_eq hnd1 hpre hndmem hpd
        have hc2 : ((pre : Node).nid == nd.nid) = true := by simp [hpd]
        rw [← heq2, ← heq1, if_neg hc1, if_pos hc2]
        have hused : pre.plannedUsed = sumSizes st.items pre.plannedItems :=
          @resort_used st pre hpre
        have hle : pre.plannedUsed + (st.item i).size ≤ pre.capacity := by
          rw [hprend]
          exact (can_move_to_elim hcmt).2.2
        have hsingle : sumSizes st.items [i] = (st.item i).size := by
          simp [sumSizes, St.item]
        rw [sumSizes_append, hsingle, ← hused]
        exact hle
      · have hc2 : ¬(((pre : Node).nid == nd.nid) = true) := by
          simp only [beq_iff_eq]
          exact hpd
        rw [← heq2, ← heq1, if_neg hc1, if_neg hc2]
        exact hcap1 pre hpre

theorem plan_rounds_capacity {settings : PlanSettings} :
    ∀ (k : Nat) (st : St) (acc res : List ItemId) (st₁ : St),
    (st.nodes.map Node.nid).Nodup →
    (∀ j, 0 ≤ (st.item j).size) →
    (∀ nd ∈ st.nodes, sumSizes st.items nd.plannedItems ≤ nd.capacity) →
    plan_rounds settings k st acc = .ok (res, st₁) →
    ∀ nd ∈ st₁.nodes, sumSizes st₁.items nd.plannedItems ≤ nd.capacity := by
  intro k
  induction k with
  | zero =>
    intro st acc res st₁ _ _ hcap h
    simp only [plan_rounds, epure_def, Except.ok.injEq, Prod.mk.injEq] at h
    exact h.2 ▸ hcap
  | succ k ih =>
    intro st acc res st₁ hnd hsz hcap h
    cases hone : plan_one st settings with
    | error e => simp [plan_rounds, hone, ebind_err] at h
    | ok p =>
      obtain ⟨r, st₂⟩ := p
      simp only [plan_rounds, hone, ebind_ok] at h
      cases r with
      | none =>
        simp only [epure_def, Except.ok.injEq, Prod.mk.injEq] at h
        exact h.2 ▸ plan_one_capacity hnd hsz hcap hone
      | some mv =>
        have hnd2 : (st₂.nodes.map Node.nid).Nodup :=
          (plan_one_nidperm hone).nodup_iff.mpr hnd
        have hsz2 : ∀ j, 0 ≤ (st₂.item j).size := by
          intro j
          rw [size_of_static (plan_one_static hone j)]
          exact hsz j
        exact ih st₂ (acc ++ mv) res st₁ hnd2 hsz2
          (plan_one_capacity hnd hsz hcap hone) h

/-- C2 witness: the conservation statement applied to a concrete run that
accepts a move. -/
theorem plan_conserves_witness :
    WF exS1st ∧ ∃ mv st₁, plan exS1st exS2settings = .ok (mv, st₁) ∧
      plannedMultiset st₁ = initialMultiset exS1st := by
  have hWF : WF exS1st := by decide
  refine ⟨hWF, ?_⟩
  with_unfolding_all
    exact ⟨[0], _, rfl, (plan_conserves exS1st exS2settings hWF).2.2 [0] _ rfl⟩

/-- C7: leader pinning.  Whenever `plan` returns, no item whose `is_leader`
flag is set appears in the returned move list — `plan_step_move` only moves
an item after `PartitionReplica.can_move_to` approved it, and that
predicate rejects leaders outright.  In particular, on spec scenario S2
(disk A holding a single size-50 leader, disk B empty, both capacity 100)
`plan` returns the empty move list. -/
theorem plan_leader_pinning (st : St) (settings : PlanSettings)
    (mv : List ItemId) (st₁ : St) (h : plan st settings = .ok (mv, st₁)) :
    (∀ i ∈ mv, (st.item i).is_leader = false) ∧
      ∃ stS2, plan exS2st exS2settings = .ok ([], stS2) := by
  constructor
  · unfold plan at h
    cases hinit : plan_init st with
    | error e => rw [hinit, ebind_err] at h; cases h
    | ok st0 =>
      rw [hinit, ebind_ok] at h
      obtain ⟨hres, -⟩ :=
        plan_rounds_leader settings.max_iters st0 [] mv st₁ h (by simp)
      intro i hi
      rw [← is_leader_of_static (plan_init_static hinit i)]
      exact hres i hi
  · with_unfolding_all exact ⟨_, rfl⟩

/-- C7 witness: a run that does accept a move still moves no leader. -/
theorem plan_leader_pinning_witness :
    ∃ mv st₁, plan exS1st exS2settings = .ok (mv, st₁) ∧
      ∀ i ∈ mv, (exS1st.item i).is_leader = false := by
  with_unfolding_all
    exact ⟨[0], _, rfl, (plan_leader_pinning exS1st exS2settings [0] _ rfl).1⟩

/-- C3 counterexample: the claim quantifies over every input, but an input
whose disk is overfull from the start refutes it — on `exOverSt` (disk A:
capacity 10 holding two size-20 items; disk B: capacity 100, empty) `plan`
accepts a move, and after that accepted move (and at termination) disk A's
planned items still sum to 20 > 10. -/
theorem plan_capacity_counterexample :
    ∃ mv st₁, plan exOverSt exOverSettings = .ok (mv, st₁) ∧ mv ≠ [] ∧
      ∃ nd ∈ st₁.nodes, nd.capacity < sumSizes st₁.items nd.plannedItems := by
  with_unfolding_all
    exact ⟨[0], _, rfl, by decide, by decide⟩

/-- C3 (amended): provided every node's initial items fit within its
capacity, then (a) each accepted round preserves the fit — every node's
planned items sum to at most its capacity afterwards — and (b) at the end
of any completed `plan` run every node's planned items fit. -/
theorem plan_capacity_of_initial_fit (st : St) (settings : PlanSettings)
    (hWF : WF st)
    (hfit : ∀ nd ∈ st.nodes, sumSizes st.items nd.initialItems ≤ nd.capacity) :
    (∀ (st₀ : St) (r : Option (List ItemId)) (st₁ : St),
        (st₀.nodes.map Node.nid).Nodup →
        (∀ j, 0 ≤ (st₀.item j).size) →
        (∀ nd ∈ st₀.nodes, sumSizes st₀.items nd.plannedItems ≤ nd.capacity) →
        plan_one st₀ settings = .ok (r, st₁) →
        ∀ nd ∈ st₁.nodes, sumSizes st₁.items nd.plannedItems ≤ nd.capacity) ∧
    (∀ (mv : List ItemId) (st₁ : St), plan st settings = .ok (mv, st₁) →
        ∀ nd ∈ st₁.nodes, sumSizes st₁.items nd.plannedItems ≤ nd.capacity) := by
  refine ⟨fun st₀ r st₁ hnd hsz hcap h => plan_one_capacity hnd hsz hcap h, ?_⟩
  intro mv st₁ h
  unfold plan at h
  cases hinit : plan_init st with
  | error e => rw [hinit, ebind_err] at h; cases h
  | ok st0 =>
    rw [hinit, ebind_ok] at h
    have hstat0 := plan_init_static hinit
    obtain ⟨items', hgo, hshape⟩ := plan_init_ok_elim hinit
    have hnd0 : (st0.nodes.map Node.nid).Nodup := by
      rw [hshape, List.map_map]
      have heq : st.nodes.map
          (Node.nid ∘ fun nd => { nd with plannedItems := nd.initialItems }) =
          st.nodes.map Node.nid := List.map_congr_left (fun nd _ => rfl)
      rw [heq]
      exact hWF.1
    have hsz0 : ∀ j, 0 ≤ (st0.item j).size := by
      intro j
      rw [size_of_static (hstat0 j)]
      exact size_nonneg_getD hWF.2.1 j
    have hcap0 : ∀ nd ∈ st0.nodes, sumSizes st0.items nd.plannedItems ≤
        nd.capacity := by
      intro nd hnd
      rw [hshape] at hnd
      obtain ⟨nd0, hnd0, rfl⟩ := List.mem_map.mp hnd
      have hsums : sumSizes st0.items nd0.initialItems =
          sumSizes st.items nd0.initialItems := sumSizes_congr hstat0 _
      show sumSizes st0.items nd0.initialItems ≤ nd0.capacity
      rw [hsums]
      exact hfit nd0 hnd0
    exact plan_rounds_capacity settings.max_iters st0 [] mv st₁ hnd0 hsz0 hcap0 h

/-- C3 witness: the amended statement applied to a concrete accepted run. -/
theorem plan_capacity_of_initial_fit_witness :
    WF exS1st ∧
      (∀ nd ∈ exS1st.nodes, sumSizes exS1st.items nd.initialItems ≤ nd.capacity) ∧
      ∃ mv st₁, plan exS1st exS2settings = .ok (mv, st₁) ∧
        ∀ nd ∈ st₁.nodes, sumSizes st₁.items nd.plannedItems ≤ nd.capacity := by
  refine ⟨by decide, by decide, ?_⟩
  with_unfolding_all
    exact ⟨[0], _, rfl, (plan_capacity_of_initial_fit exS1st exS2settings
      (by decide) (by decide)).2 [0] _ rfl⟩

theorem pvariance_ok_of_ne_nil {xs : List ℚ} (h : xs ≠ []) :
    ∃ v, pvariance xs = .ok v := by
  cases xs with
  | nil => exact absurd rfl h
  | cons a l => exact ⟨_, rfl⟩

/-- C8: round-trip at rest.  For a well-formed, non-empty node list in
which every node's fractional utilization (initial size sum over capacity)
is strictly within `node_fraction_threshold` of every other node's, `plan`
accepts no move: the large-item iterator stops at its very first node, the
first round reports no progress, and the run returns the empty move list
with every held item's `planned_owner` still null. -/
theorem plan_at_rest (st : St) (settings : PlanSettings) (hWF : WF st)
    (hne : st.nodes ≠ [])
    (heq : ∀ n1 ∈ st.nodes, ∀ n2 ∈ st.nodes,
      |((sumSizes st.items n1.initialItems : Int) : ℚ) / (n1.capacity : ℚ) -
        ((sumSizes st.items n2.initialItems : Int) : ℚ) / (n2.capacity : ℚ)| <
        settings.node_fraction_threshold) :
    ∃ st₁, plan st settings = .ok ([], st₁) ∧
      ∀ nd ∈ st₁.nodes, ∀ i ∈ nd.plannedItems, (st₁.item i).plannedOwner = none := by
  obtain ⟨items', hinit, hdisj, hall⟩ := plan_init_spec hWF.2.2.2
  have hstat0 : ∀ j, itemStatic (items'.getD j default) =
      itemStatic (st.items.getD j default) := by
    intro j
    rcases hdisj j with hc | hc <;> rw [hc] <;> rfl
  have howner : ∀ nd0 ∈ st.nodes, ∀ i ∈ nd0.initialItems,
      (items'.getD i default).plannedOwner = none := by
    intro nd0 hnd0 i hi
    rw [hall nd0 hnd0 i hi]
  set st0 : St := { nodes := st.nodes.map (fun nd => { nd with plannedItems := nd.initialItems }), items := items' } with hst0
  have hfrac : ∀ nd ∈ (resort st0).nodes, ∃ nd0 ∈ st.nodes,
      nd.planned_fraction_used =
        ((sumSizes st.items nd0.initialItems : Int) : ℚ) / (nd0.capacity : ℚ) := by
    intro nd hnd
    obtain ⟨ndB, hndB, rfl⟩ := resort_mem hnd
    rw [hst0] at hndB
    obtain ⟨nd0, hnd0, rfl⟩ := List.mem_map.mp hndB
    refine ⟨nd0, hnd0, ?_⟩
    unfold Node.planned_fraction_used
    rw [planned_sort_used]
    show ((sumSizes items' nd0.initialItems : Int) : ℚ) / (nd0.capacity : ℚ) = _
    rw [sumSizes_congr hstat0]
  have hmemclear : ∀ nd ∈ (resort st0).nodes, ∀ i ∈ nd.plannedItems,
      ((resort st0).item i).plannedOwner = none := by
    intro nd hnd i hi
    obtain ⟨ndB, hndB, rfl⟩ := resort_mem hnd
    rw [hst0] at hndB
    obtain ⟨nd0, hnd0, rfl⟩ := List.mem_map.mp hndB
    have hi2 : i ∈ nd0.initialItems :=
      (planned_sort_items_perm st0.items _).mem_iff.mp hi
    exact howner nd0 hnd0 i hi2
  have hne0 : (resort st0).nodes ≠ [] := by
    intro hcon
    have hlen := (resort_nodes_perm st0).length_eq
    rw [hcon] at hlen
    simp only [List.length_nil, List.length_map] at hlen
    exact hne (List.length_eq_zero.mp hlen.symm)
  obtain ⟨hd, tl, hcons⟩ : ∃ hd tl, (resort st0).nodes = hd :: tl := by
    cases hl : (resort st0).nodes with
    | nil => exact absurd hl hne0
    | cons hd tl => exact ⟨hd, tl, rfl⟩
  have hiter : iter_large_items settings (resort st0) = [] := by
    cases hgl : (resort st0).nodes.getLast? with
    | none => simp [iter_large_items, hgl]
    | some lastN =>
      have hlmem : lastN ∈ (resort st0).nodes := by
        obtain ⟨hne2, hx⟩ := List.mem_getLast?_eq_getLast (Option.mem_def.mpr hgl)
        rw [hx]
        exact List.getLast_mem hne2
      have hhdmem : hd ∈ (resort st0).nodes := by
        rw [hcons]
        exact List.mem_cons_self _ _
      obtain ⟨l0, hl0, hlf⟩ := hfrac lastN hlmem
      obtain ⟨h0, hh0, hhf⟩ := hfrac hd hhdmem
      have hcond : |lastN.planned_fraction_used - hd.planned_fraction_used| <
          settings.node_fraction_threshold := by
        rw [hlf, hhf]
        exact heq l0 hl0 h0 hh0
      simp only [iter_large_items, hgl]
      rw [hcons]
      simp only [iter_large_go]
      split
      · rfl
      · next hcontr => exact absurd hcond hcontr
  obtain ⟨cur, hcur⟩ : ∃ v, percent_used_variance (resort st0) [] [] = .ok v := by
    apply pvariance_ok_of_ne_nil
    intro hcon
    rw [List.map_eq_nil] at hcon
    exact hne0 hcon
  have hone : plan_one st0 settings = .ok (none, resort st0) := by
    simp only [plan_one, hcur, ebind_ok, hiter, plan_one_go, epure_def]
  unfold plan
  rw [hinit, ebind_ok]
  cases hk : settings.max_iters with
  | zero =>
    refine ⟨st0, rfl, ?_⟩
    intro nd hnd i hi
    rw [hst0] at hnd
    obtain ⟨nd0, hnd0, rfl⟩ := List.mem_map.mp hnd
    exact howner nd0 hnd0 i hi
  | succ k =>
    refine ⟨resort st0, ?_, hmemclear⟩
    simp only [plan_rounds, hone, ebind_ok, epure_def]

/-- C8 witness: a two-disk system at equal fractional utilization (both at
one half) returns the empty plan. -/
theorem plan_at_rest_witness :
    ∃ st₁, plan exEqSt exEqSettings = .ok ([], st₁) ∧
      ∀ nd ∈ st₁.nodes, ∀ i ∈ nd.plannedItems, (st₁.item i).plannedOwner = none := by
  apply plan_at_rest exEqSt exEqSettings (by decide) (by decide)
  with_unfolding_all decide

theorem percentage_nil (st : St) (nd : Node) :
    percentage st [] [] nd = (nd.plannedUsed : ℚ) / (nd.capacity : ℚ) := by
  simp [percentage]

theorem percentage_single (st : St) (a b : Option NodeId) (i : ItemId) (nd : Node) :
    percentage st [(a, i)] [(b, i)] nd =
      (((nd.plannedUsed - (if b = some nd.nid then (st.item i).size else 0) +
        (if a = some nd.nid then (st.item i).size else 0)) : Int) : ℚ) /
        (nd.capacity : ℚ) := by
  by_cases ha : a = some nd.nid <;> by_cases hb : b = some nd.nid <;>
    simp [percentage, ha, hb]

theorem stateFracs_resort (st : St) :
    ((resort st).nodes.map
      (fun nd => (nd.plannedUsed : ℚ) / (nd.capacity : ℚ))).Perm (stateFracs st) := by
  have hp := (resort_nodes_perm st).map
    (fun nd => (nd.plannedUsed : ℚ) / (nd.capacity : ℚ))
  rw [List.map_map] at hp
  have he : st.nodes.map ((fun nd => (nd.plannedUsed : ℚ) / (nd.capacity : ℚ)) ∘
      Node.planned_sort st.items) = stateFracs st := by
    apply List.map_congr_left
    intro nd _
    simp only [Function.comp_apply, stateFracs]
    rw [planned_sort_used]
    rfl
  rw [he] at hp
  exact hp

theorem round_variance_eq (st : St) :
    percent_used_variance (resort st) [] [] = pvariance (stateFracs st) := by
  unfold percent_used_variance
  apply pvariance_perm
  have hmapeq : (resort st).nodes.map (percentage (resort st) [] []) =
      (resort st).nodes.map
        (fun nd' => (nd'.plannedUsed : ℚ) / (nd'.capacity : ℚ)) :=
    List.map_congr_left (fun nd' _ => percentage_nil (resort st) nd')
  rw [hmapeq]
  exact stateFracs_resort st

/-- C4: monotone variance.  If a round accepts a move, the exact per-node
utilization variance (population variance of `planned_used / capacity`,
recomputed from the planned items — the value the next round's `resort`
plus `percent_used_variance` rebuild, or the terminal value if it was the
last round) strictly decreases: the hypothetical variance the step
computed and accepted equals the recomputed variance of the post-move
state, and acceptance required it to be strictly below the round's base
variance.  (In swap mode no round is ever accepted, so the claim is
vacuous there.) -/
theorem plan_one_variance_decreases {st : St} {settings : PlanSettings}
    {mv : List ItemId} {st₁ : St}
    (hnd : (st.nodes.map Node.nid).Nodup)
    (h : plan_one st settings = .ok (some mv, st₁)) :
    ∃ v v', pvariance (stateFracs st) = .ok v ∧
      pvariance (stateFracs st₁) = .ok v' ∧
      percent_used_variance (resort st₁) [] [] = .ok v' ∧ v' < v := by
  obtain ⟨cur, hcur, i, hi, hstep⟩ := plan_one_some h
  obtain ⟨-, -, nd, hndmem, hcmt, ⟨mp, hmp, hlt⟩, hmv⟩ :=
    plan_step_some _ _ _ _ _ _ hstep
  have hnd1 : ((resort st).nodes.map Node.nid).Nodup := resort_nodup hnd
  obtain ⟨s, src, hco, hf, hmem, hitems, hnodes⟩ := move_ok_elim hmv
  have hsrc_mem : src ∈ (resort st).nodes := List.mem_of_find?_eq_some hf
  have hsrc_nid : src.nid = s := by simpa using List.find?_some hf
  have hnotmoved := (iter_large_mem hi).2
  have hinit_s : ((resort st).item i).initialOwner = some s := by
    rw [← current_owner_of_not_moved hnotmoved]
    exact hco
  have hsd : s ≠ nd.nid := by
    intro hcon
    exact (can_move_to_elim hcmt).2.1 (hcon ▸ hinit_s)
  -- the round's base variance is the variance of the exact fractions
  have hA : pvariance (stateFracs st) = .ok cur := by
    rw [← hcur]
    exact (round_variance_eq st).symm
  -- the accepted hypothetical variance is the post-move exact variance
  have hstat : ∀ j, itemStatic (st₁.item j) = itemStatic (st.item j) := by
    intro j
    have hh := move_static hmv j
    exact hh
  have hsums : ∀ l, sumSizes st₁.items l = sumSizes st.items l :=
    fun l => sumSizes_congr hstat l
  have hitmsz : ((resort st).item i).size = (st.items.getD i default).size := rfl
  have hB : pvariance (stateFracs st₁) = .ok mp := by
    rw [← hmp]
    unfold percent_used_variance
    apply pvariance_perm
    rw [hinit_s]
    have hfr : stateFracs st₁ = (resort st).nodes.map
        (percentage (resort st) [(some nd.nid, i)] [(some s, i)]) := by
      unfold stateFracs
      rw [hnodes, List.map_map, List.map_map]
      apply List.map_congr_left
      intro pre hpre
      simp only [Function.comp_apply]
      rw [percentage_single]
      by_cases hps : pre.nid = s
      · have hpresrc : pre = src :=
          mem_nid_eq hnd1 hpre hsrc_mem (by rw [hps, hsrc_nid])
        have hc1 : (pre.nid == src.nid) = true := by simp [hpresrc]
        have hc2 : ¬((({ pre with plannedItems := pre.plannedItems.erase i }).nid ==
            nd.nid) = true) := by
          simp only [beq_iff_eq]
          exact fun hcon => hsd (hps ▸ hcon)
        rw [if_pos hc1, if_neg hc2]
        have he1 : (some s = some pre.nid) := by rw [hps]
        have he2 : ¬(some nd.nid = some pre.nid) := by
          simp only [Option.some.injEq]
          exact fun hcon => hsd (hps ▸ hcon.symm)
        rw [if_pos he1, if_neg he2]
        have herase := sumSizes_erase st.items (l := pre.plannedItems) (i := i)
          (hpresrc ▸ hmem)
        have hused : pre.plannedUsed = sumSizes st.items pre.plannedItems :=
          @resort_used st pre hpre
        show ((sumSizes st₁.items (pre.plannedItems.erase i) : Int) : ℚ) /
            (pre.capacity : ℚ) = _
        rw [hsums, herase, hused, hitmsz]
        norm_num
      · by_cases hpd : pre.nid = nd.nid
        · have hprend : pre = nd := mem_nid_eq hnd1 hpre hndmem hpd
          have hc1 : ¬((pre.nid == src.nid) = true) := by
            simp only [beq_iff_eq]
            rw [hsrc_nid]
            exact hps
          have hc2 : ((pre : Node).nid == nd.nid) = true := by simp [hpd]
          rw [if_neg hc1, if_pos hc2]
          have he1 : ¬(some s = some pre.nid) := by
            simp only [Option.some.injEq]
            exact fun hcon => hps hcon.symm
          have he2 : (some nd.nid = some pre.nid) := by rw [hpd]
          rw [if_neg he1, if_pos he2]
          have hused : pre.plannedUsed = sumSizes st.items pre.plannedItems :=
            @resort_used st pre hpre
          show ((sumSizes st₁.items (pre.plannedItems ++ [i]) : Int) : ℚ) /
              (pre.capacity : ℚ) = _
          rw [hsums, sumSizes_append, hused]
          have hsingle : sumSizes st.items [i] = (st.items.getD i default).size := by
            simp [sumSizes]
          rw [hsingle, hitmsz]
          norm_num
        · have hc1 : ¬((pre.nid == src.nid) = true) := by
            simp only [beq_iff_eq]
            rw [hsrc_nid]
            exact hps
          have hc2 : ¬(((pre : Node).nid == nd.nid) = true) := by
            simp only [beq_iff_eq]
            exact hpd
          rw [if_neg hc1, if_neg hc2]
          have he1 : ¬(some s = some pre.nid) := by
            simp only [Option.some.injEq]
            exact fun hcon => hps hcon.symm
          have he2 : ¬(some nd.nid = some pre.nid) := by
            simp only [Option.some.injEq]
            exact fun hcon => hpd hcon.symm
          rw [if_neg he1, if_neg he2]
          have hused : pre.plannedUsed = sumSizes st.items pre.plannedItems :=
            @resort_used st pre hpre
          show ((sumSizes st₁.items pre.plannedItems : Int) : ℚ) /
              (pre.capacity : ℚ) = _
          rw [hsums, hused]
          norm_num
    rw [hfr]
  exact ⟨cur, mp, hA, hB, (round_variance_eq st₁).trans hB, hlt⟩

/-- C4 witness: a concrete accepted round on `exC4st` (disk A overfull at
fraction 4, disk B empty) strictly lowers the exact utilization
variance. -/
theorem plan_one_variance_decreases_witness :
    (exC4st.nodes.map Node.nid).Nodup ∧
      ∃ mv st₁, plan_one exC4st exOverSettings = .ok (some mv, st₁) ∧
        ∃ v v', pvariance (stateFracs exC4st) = .ok v ∧
          pvariance (stateFracs st₁) = .ok v' ∧
          percent_used_variance (resort st₁) [] [] = .ok v' ∧ v' < v := by
  have hrun : plan_one exC4st exOverSettings = .ok (some [0],
    { nodes := [{ nid := 0, broker := 0, capacity := 10, mount_point := "",
                  initialItems := [0, 1], plannedItems := [1], plannedUsed := 40 },
                { nid := 1, broker := 0, capacity := 100, mount_point := "",
                  initialItems := [], plannedItems := [0], plannedUsed := 0 }],
      items := [{ size := 20, topic := 0, part := 0, replica_id := 0,
                  is_leader := false, initialOwner := some 0, plannedOwner := some 1 },
                { size := 20, topic := 1, part := 0, replica_id := 0,
                  is_leader := false, initialOwner := some 0, plannedOwner := none }] }) := by
    with_unfolding_all rfl
  exact ⟨by decide, [0], _, hrun, plan_one_variance_decreases (by decide) hrun⟩
